import Mathlib

/-!
Verification of the schema-diff engine of `peewee_migrate` (`peewee_migrate/auto.py`).

The Python module is shallowly embedded.  Peewee fields and models become
structures carrying exactly the attributes that `auto.py` reads; the parameter
dictionaries built by `field_to_params` / `compare_fields` become association
lists of string keys and tagged values; every function of `auto.py` becomes a
Lean function of the same name.  The migration strings that `auto.py` emits
are represented by the inductive `Operation`, whose constructors carry exactly
the payload that the corresponding string-building helper of `auto.py`
receives (`create_fields`, `drop_fields`, `change_fields`, `change_not_null`,
`add_index`, `drop_index`, `create_model`, `remove_model`); the textual form
of `change_not_null` is embedded separately as `change_not_null_str`.

Python's `set` iteration order is unspecified; the embedding determinises it
to the underlying field/index declaration order.  All claims proved below are
insensitive to that choice (they speak about which operations occur and about
the relative order of operation kinds, which the source fixes by its sequence
of `changes.append` calls, not by set iteration order).
-/

namespace Auto

/-- A Python value as it occurs in the parameter dictionaries of `auto.py`:
booleans, numbers, strings, and the 2-tuple of booleans stored under the
`"index"` key by `field_to_params`. -/
inductive PValue where
  | bool (b : Bool)
  | nat (n : Nat)
  | int (i : Int)
  | str (s : String)
  | pair (a b : Bool)
  deriving DecidableEq, Repr

/-- A Python class, identified the way `auto.py` discriminates classes:
by its name together with the module it is defined in
(`ftype.__module__`, keys of `FIELD_MODULES_MAP`, members of `PW_MODULES`). -/
structure FType where
  cname : String
  module : String
  deriving DecidableEq, Repr

/-- A field default value.  `auto.py` inspects a default only through
`is not None`, `callable(...)` and `isinstance(..., Hashable)`, plus the
value itself when it ends up in a parameter dictionary. -/
structure DefaultVal where
  value : PValue
  isCallable : Bool := false
  isHashable : Bool := true
  deriving DecidableEq, Repr

/-- A peewee field, restricted to the attributes `auto.py` reads.
`ftype` is `type(field)` and `ancestors` the rest of `type(field).mro()`.
The attribute slots (`max_length`, …) model the attributes accessed by the
extractors in `FIELD_TO_PARAMS`; `rel_table` models `field.rel_model`'s table
name for foreign keys (used for dependency ordering of models). -/
structure PWField where
  name : String
  ftype : FType
  ancestors : List FType := []
  null : Bool := false
  primary_key : Bool := false
  index : Bool := false
  unique : Bool := false
  default : Option DefaultVal := none
  max_length : Nat := 255
  max_digits : Nat := 10
  decimal_places : Nat := 5
  auto_round : Bool := false
  rounding : String := "ROUND_HALF_EVEN"
  on_delete : Option String := none
  on_update : Option String := none
  formats_is_list : Bool := true
  formats : String := ""
  rel_table : Option String := none
  deriving DecidableEq, Repr

/-- A peewee model as `auto.py` sees it: `_meta.table_name`, `_meta.fields`
(a name-keyed dict, embedded as a list in declaration order) and
`_meta.indexes` (entries `(column-name tuple, unique flag)`). -/
structure PWModel where
  table_name : String
  fields : List PWField
  indexes : List (List String × Bool) := []
  deriving DecidableEq, Repr

/-- One migration operation, carrying the payload that the corresponding
string-building helper of `auto.py` receives. -/
inductive Operation where
  | createFields (table : String) (fields : List PWField)
  | dropFields (table : String) (names : List String)
  | changeFields (table : String) (fields : List PWField)
  | changeNotNull (table : String) (name : String) (null : Bool)
  | addIndex (table : String) (columns : List String) (unique : Bool)
  | dropIndex (table : String) (columns : List String)
  | createModel (model : PWModel)
  | removeModel (table : String)
  deriving DecidableEq, Repr

/-- `PW_MODULES` from `auto.py`. -/
def PW_MODULES : List String := ["playhouse.postgres_ext", "playhouse.fields", "peewee"]

/-- A parameter dictionary: association list with (by construction) unique
string keys. -/
abbrev TParams := List (String × PValue)

/-- Single-quote character, used to mirror Python `repr` of strings. -/
def sq : String := String.singleton (Char.ofNat 39)

/-- Python `repr` of a string (as used by `auto.py` on names): the string
wrapped in single quotes. -/
def pyrepr (s : String) : String := sq ++ s ++ sq

/-- `find_field_type` from `auto.py`: if the concrete class's module is
recognized return it, otherwise walk the mro and return the first class
defined in a recognized module; if the walk finds nothing the function
falls through to returning the concrete class itself. -/
def find_field_type (f : PWField) : FType :=
  if f.ftype.module ∈ PW_MODULES then f.ftype
  else
    match (f.ftype :: f.ancestors).find? (fun c => decide (c.module ∈ PW_MODULES)) with
    | some c => c
    | none => f.ftype

/-- `fk_to_params` from `auto.py` (the values are quoted strings,
mirroring the f-string quoting in the source). -/
def fk_to_params (f : PWField) : TParams :=
  (match f.on_delete with
   | some v => [("on_delete", PValue.str (pyrepr v))]
   | none => []) ++
  (match f.on_update with
   | some v => [("on_update", PValue.str (pyrepr v))]
   | none => [])

/-- `dtf_to_params` from `auto.py`. -/
def dtf_to_params (f : PWField) : TParams :=
  if f.formats_is_list then [] else [("formats", PValue.str f.formats)]

/-- `peewee.CharField` as a class key. -/
def pwCharField : FType := ⟨"CharField", "peewee"⟩

/-- `peewee.DecimalField` as a class key. -/
def pwDecimalField : FType := ⟨"DecimalField", "peewee"⟩

/-- `peewee.ForeignKeyField` as a class key. -/
def pwForeignKeyField : FType := ⟨"ForeignKeyField", "peewee"⟩

/-- `peewee.DateTimeField` as a class key. -/
def pwDateTimeField : FType := ⟨"DateTimeField", "peewee"⟩

/-- The `FIELD_TO_PARAMS` registry of `auto.py`, as a function from the class
key to the extractor (`dict.get` with default `lambda f: {}`). -/
def FIELD_TO_PARAMS (ftype : FType) : PWField → TParams :=
  if ftype = pwCharField then fun f => [("max_length", PValue.nat f.max_length)]
  else if ftype = pwDecimalField then fun f =>
    [("max_digits", PValue.nat f.max_digits),
     ("decimal_places", PValue.nat f.decimal_places),
     ("auto_round", PValue.bool f.auto_round),
     ("rounding", PValue.str f.rounding)]
  else if ftype = pwForeignKeyField then fk_to_params
  else if ftype = pwDateTimeField then dtf_to_params
  else fun _ => []

/-- `dict.pop(k, None)` restricted to key removal. -/
def removeKey (p : TParams) (k : String) : TParams :=
  p.filter (fun kv => !decide (kv.1 = k))

/-- `field_to_params` from `auto.py`: extractor output, plus `default` when
the default is a non-`None`, non-callable, hashable value, plus the `index`
2-tuple `(index and not unique, unique)`, with `backref` popped. -/
def field_to_params (f : PWField) : TParams :=
  let ftype := find_field_type f
  let params := FIELD_TO_PARAMS ftype f
  let params :=
    match f.default with
    | some d => if !d.isCallable && d.isHashable then params ++ [("default", d.value)] else params
    | none => params
  let params := params ++ [("index", PValue.pair (f.index && !f.unique) f.unique)]
  removeKey params "backref"

/-- `dict(set(p1.items()) - set(p2.items()))`: the key/value pairs of `p1`
that do not occur in `p2` (order determinised to `p1`'s). -/
def dictDiff (p1 p2 : TParams) : TParams :=
  p1.filter (fun kv => !decide (kv ∈ p2))

/-- `compare_fields` from `auto.py`. -/
def compare_fields (f1 f2 : PWField) : TParams :=
  if find_field_type f1 ≠ find_field_type f2 then [("cls", PValue.bool true)]
  else
    dictDiff (field_to_params f1 ++ [("null", PValue.bool f1.null)])
             (field_to_params f2 ++ [("null", PValue.bool f2.null)])

/-- Lookup of a key in a parameter dictionary (`dict.pop(k, None)`'s result). -/
def lookupKey (p : TParams) (k : String) : Option PValue :=
  (p.find? (fun kv => decide (kv.1 = k))).map Prod.snd

/-- The diff dictionary after `pop("null")` and `pop("index")`. -/
def restParams (p : TParams) : TParams :=
  p.filter (fun kv => !decide (kv.1 = "null") && !decide (kv.1 = "index"))

/-- `meta.fields[name]`-style lookup (name-keyed dict access). -/
def lookupField (m : PWModel) (name : String) : Option PWField :=
  m.fields.find? (fun f => decide (f.name = name))

/-- `name in meta.fields`. -/
def hasFieldName (m : PWModel) (name : String) : Bool :=
  (lookupField m name).isSome

/-- `names1 = set(field_names1) - set(field_names2)` resolved to fields:
the fields of `m1` whose name does not occur in `m2`. -/
def addedFields (m1 m2 : PWModel) : List PWField :=
  m1.fields.filter (fun f => !hasFieldName m2 f.name)

/-- `names2 = set(field_names2) - set(field_names1)`: names of fields of
`m2` that do not occur in `m1`. -/
def droppedNames (m1 m2 : PWModel) : List String :=
  (m2.fields.filter (fun f => !hasFieldName m1 f.name)).map (fun f => f.name)

/-- The iteration `for name in set(field_names1) - names1 - names2`, with the
two dict lookups `field_names1[name]`, `field_names2[name]` performed. -/
def commonPairs (m1 m2 : PWModel) : List (PWField × PWField) :=
  m1.fields.filterMap (fun f1 => (lookupField m2 f1.name).map (fun f2 => (f1, f2)))

/-- `fields_` of `diff_one`: common fields whose diff is non-empty after the
`null`/`index` pops. -/
def changedFields (m1 m2 : PWModel) : List PWField :=
  (commonPairs m1 m2).filterMap (fun p =>
    if restParams (compare_fields p.1 p.2) ≠ [] then some p.1 else none)

/-- `nulls_` of `diff_one`: `(name, popped null value)` for common fields
whose popped `null` entry is present (its value is the boolean stored by
`compare_fields`, i.e. the new field's `null` flag). -/
def nullsList (m1 m2 : PWModel) : List (String × Bool) :=
  (commonPairs m1 m2).filterMap (fun p =>
    match lookupKey (compare_fields p.1 p.2) "null" with
    | some (PValue.bool b) => some (p.1.name, b)
    | _ => none)

/-- `indexes_` of `diff_one`: `(name, index[0], index[1])` for common fields
whose popped `index` entry is present. -/
def indexesList (m1 m2 : PWModel) : List (String × Bool × Bool) :=
  (commonPairs m1 m2).filterMap (fun p =>
    match lookupKey (compare_fields p.1 p.2) "index" with
    | some (PValue.pair a b) => some (p.1.name, a, b)
    | _ => none)

/-- The per-column index loop of `diff_one` (`for name, index, unique in
indexes_`).  The `none` arm of the lookup is unreachable: every listed name
is a common field name, so `field_names2[name]` succeeds in the source. -/
def colIndexOps (m1 m2 : PWModel) : List Operation :=
  (indexesList m1 m2).flatMap (fun e =>
    if e.2.1 || e.2.2 then
      (match lookupField m2 e.1 with
       | some f2 =>
         if f2.unique || f2.index then [Operation.dropIndex m1.table_name [e.1]] else []
       | none => []) ++ [Operation.addIndex m1.table_name [e.1] e.2.2]
    else [Operation.dropIndex m1.table_name [e.1]])

/-- The compound-index drop loop of `diff_one`: entries of `meta2.indexes`
missing from `meta1.indexes` whose column tuple spans more than one column. -/
def compoundDrops (m1 m2 : PWModel) : List Operation :=
  (m2.indexes.filter (fun ix => !decide (ix ∈ m1.indexes))).filterMap (fun ix =>
    if ix.1.length > 1 then some (Operation.dropIndex m1.table_name ix.1) else none)

/-- The compound-index add loop of `diff_one`. -/
def compoundAdds (m1 m2 : PWModel) : List Operation :=
  (m1.indexes.filter (fun ix => !decide (ix ∈ m2.indexes))).filterMap (fun ix =>
    if ix.1.length > 1 then some (Operation.addIndex m1.table_name ix.1 ix.2) else none)

/-- `diff_one` from `auto.py`: the `changes` list in its exact append order. -/
def diff_one (m1 m2 : PWModel) : List Operation :=
  (if addedFields m1 m2 ≠ [] then
    [Operation.createFields m1.table_name (addedFields m1 m2)] else [])
  ++ (if droppedNames m1 m2 ≠ [] then
    [Operation.dropFields m1.table_name (droppedNames m1 m2)] else [])
  ++ (if changedFields m1 m2 ≠ [] then
    [Operation.changeFields m1.table_name (changedFields m1 m2)] else [])
  ++ (nullsList m1 m2).map (fun e => Operation.changeNotNull m1.table_name e.1 e.2)
  ++ colIndexOps m1 m2
  ++ compoundDrops m1 m2
  ++ compoundAdds m1 m2

/-- `models_map[name]`-style lookup. -/
def lookupModel (models : List PWModel) (name : String) : Option PWModel :=
  models.find? (fun m => decide (m.table_name = name))

/-- Table names a model references through its foreign-key fields. -/
def refNames (m : PWModel) : List String :=
  m.fields.filterMap (fun f => f.rel_table)

/-- The models of `models` that `m` depends on: referenced tables other than
`m` itself (self-references impose no ordering constraint). -/
def depsOf (models : List PWModel) (m : PWModel) : List PWModel :=
  (refNames m).filterMap (fun n =>
    if n = m.table_name then none else lookupModel models n)

/-- Fuelled dependency depth of a model: the length of the longest
foreign-key reference chain starting at `m`, clipped at `fuel`. -/
def depthF (models : List PWModel) : Nat → PWModel → Nat
  | 0, _ => 0
  | fuel + 1, m => ((depsOf models m).map (fun r => depthF models fuel r + 1)).foldr max 0

/-- Sort key: dependency depth with fuel equal to the number of models
(enough fuel for any acyclic dependency graph). -/
def modelKey (models : List PWModel) (m : PWModel) : Nat :=
  depthF models models.length m

/-- Order on models: referenced-before-referencing (smaller depth first). -/
def modelLE (models : List PWModel) (a b : PWModel) : Prop :=
  modelKey models a ≤ modelKey models b

instance (models : List PWModel) : DecidableRel (modelLE models) := fun a b =>
  inferInstanceAs (Decidable (modelKey models a ≤ modelKey models b))

instance (models : List PWModel) : IsTotal PWModel (modelLE models) :=
  ⟨fun a b => Nat.le_total (modelKey models a) (modelKey models b)⟩

instance (models : List PWModel) : IsTrans PWModel (modelLE models) :=
  ⟨fun _ _ _ hab hbc => Nat.le_trans hab hbc⟩

/-- Modelled from the spec: `pw.sort_models` is a function of the external
`peewee` library (not part of this repository's sources).  Per the spec,
it topologically sorts tables by foreign-key dependency — "a table
referencing another via a foreign key is ordered after the table it
references", with self-references permitted.  The model sorts by the
dependency-depth key, which realises exactly that contract on acyclic
dependency graphs. -/
def sort_models (models : List PWModel) : List PWModel :=
  List.insertionSort (modelLE models) models

/-- `diff_many` from `auto.py`: sort both snapshots, optionally reverse,
diff common tables in new-snapshot order, then create new-only models,
then remove old-only models. -/
def diff_many (models1 models2 : List PWModel) (reverse : Bool) : List Operation :=
  let s1 := sort_models models1
  let s2 := sort_models models2
  let s1 := if reverse then s1.reverse else s1
  let s2 := if reverse then s2.reverse else s2
  (s1.flatMap (fun m =>
     match lookupModel s2 m.table_name with
     | some m2 => diff_one m m2
     | none => []))
  ++ (s1.filter (fun m => !(lookupModel s2 m.table_name).isSome)).map Operation.createModel
  ++ (s2.filter (fun m => !(lookupModel s1 m.table_name).isSome)).map
      (fun m => Operation.removeModel m.table_name)

/-- `change_not_null` from `auto.py`: the rendered migration string,
`drop_not_null` when the column becomes nullable, `add_not_null` otherwise. -/
def change_not_null_str (table name : String) (null : Bool) : String :=
  let operation := if null then "drop_not_null" else "add_not_null"
  "migrator." ++ operation ++ "(" ++ pyrepr table ++ ", " ++ pyrepr name ++ ")"

/-- Rank of an operation in the fixed emission order of `diff_one`.
Per-column index operations act on a single column; compound index
operations are guarded by `len(index[0]) > 1` in the source, so column-list
length separates the two. -/
def opRank : Operation → Nat
  | .createFields _ _ => 0
  | .dropFields _ _ => 1
  | .changeFields _ _ => 2
  | .changeNotNull _ _ _ => 3
  | .dropIndex _ cols => if cols.length ≤ 1 then 4 else 5
  | .addIndex _ cols _ => if cols.length ≤ 1 then 4 else 6
  | .createModel _ => 7
  | .removeModel _ => 8

/-- Recogniser for a SetNullable operation on a given table and column. -/
def isNullOpFor (table name : String) : Operation → Bool
  | .changeNotNull t n _ => decide (t = table) && decide (n = name)
  | _ => false

/-- Recogniser for a per-column (single-column) index operation on a given
table and column. -/
def isColIndexOpFor (table name : String) : Operation → Bool
  | .dropIndex t cols => decide (t = table) && decide (cols = [name])
  | .addIndex t cols _ => decide (t = table) && decide (cols = [name])
  | _ => false

/-- `a` occurs strictly before `b` in `l`. -/
def Precedes {α : Type _} (l : List α) (a b : α) : Prop :=
  ∃ i j : Nat, i < j ∧ l[i]? = some a ∧ l[j]? = some b

/-- The foreign-key dependency graph restricted to `models` is acyclic:
no model starts a reference chain as long as the model count. -/
def acyclicModels (models : List PWModel) : Prop :=
  ∀ m ∈ models, depthF models models.length m < models.length

instance (models : List PWModel) : Decidable (acyclicModels models) :=
  inferInstanceAs (Decidable (∀ m ∈ models, depthF models models.length m < models.length))

/-- The key set a `FIELD_TO_PARAMS` extractor can produce. -/
def extractorKeys : List String :=
  ["max_length", "max_digits", "decimal_places", "auto_round", "rounding",
   "on_delete", "on_update", "formats"]

/-- The `default` entry of `field_to_params`, isolated. -/
def defaultPart (f : PWField) : TParams :=
  match f.default with
  | some d => if !d.isCallable && d.isHashable then [("default", d.value)] else []
  | none => []

/-- The `index` entry of `field_to_params`, isolated. -/
def indexEntryOf (f : PWField) : String × PValue :=
  ("index", PValue.pair (f.index && !f.unique) f.unique)

/-- A field whose default is excluded from comparison by `field_to_params`:
absent, callable, or unhashable. -/
def excludedDefault (d : Option DefaultVal) : Prop :=
  match d with
  | none => True
  | some v => v.isCallable = true ∨ v.isHashable = false

instance (d : Option DefaultVal) : Decidable (excludedDefault d) := by
  unfold excludedDefault
  exact match d with
  | none => inferInstance
  | some _ => inferInstance

/- Concrete schemas used to evaluate the theorems at explicit inputs. -/

/-- A plain auto-increment primary-key column. -/
def idField : PWField := { name := "id", ftype := ⟨"AutoField", "peewee"⟩, primary_key := true }

/-- Scenario A, old column: `email` character, unique. -/
def emailOld : PWField := { name := "email", ftype := ⟨"CharField", "peewee"⟩, unique := true }

/-- Scenario A, new column: `email` character, indexed non-unique. -/
def emailNew : PWField := { name := "email", ftype := ⟨"CharField", "peewee"⟩, index := true }

/-- Scenario A, old table. -/
def usersOld : PWModel := { table_name := "users", fields := [idField, emailOld] }

/-- Scenario A, new table. -/
def usersNew : PWModel := { table_name := "users", fields := [idField, emailNew] }

/-- Scenario B, old column: 32-bit integer `age`. -/
def ageOld : PWField := { name := "age", ftype := ⟨"IntegerField", "peewee"⟩ }

/-- Scenario B, new column: 64-bit integer `age`. -/
def ageNew : PWField := { name := "age", ftype := ⟨"BigIntegerField", "peewee"⟩ }

/-- Scenario B, old table. -/
def personsOld : PWModel := { table_name := "persons", fields := [idField, ageOld] }

/-- Scenario B, new table. -/
def personsNew : PWModel := { table_name := "persons", fields := [idField, ageNew] }

/-- Type-changed column that also flips nullability and index state (old). -/
def scoreOld : PWField := { name := "score", ftype := ⟨"IntegerField", "peewee"⟩ }

/-- Type-changed column that also flips nullability and index state (new). -/
def scoreNew : PWField :=
  { name := "score", ftype := ⟨"BigIntegerField", "peewee"⟩, null := true, index := true }

/-- Old table for the type-change suppression scenario. -/
def gamesOld : PWModel := { table_name := "games", fields := [idField, scoreOld] }

/-- New table for the type-change suppression scenario. -/
def gamesNew : PWModel := { table_name := "games", fields := [idField, scoreNew] }

/-- Nullability scenario, old column: non-nullable text. -/
def bioOld : PWField := { name := "bio", ftype := ⟨"TextField", "peewee"⟩ }

/-- Nullability scenario, new column: nullable text. -/
def bioNew : PWField := { name := "bio", ftype := ⟨"TextField", "peewee"⟩, null := true }

/-- Nullability scenario, old table. -/
def authorsOld : PWModel := { table_name := "authors", fields := [idField, bioOld] }

/-- Nullability scenario, new table. -/
def authorsNew : PWModel := { table_name := "authors", fields := [idField, bioNew] }

/-- Callable-default scenario, old column: factory default. -/
def stampOld : PWField :=
  { name := "stamp", ftype := ⟨"DateTimeField", "peewee"⟩,
    default := some { value := PValue.str "now1", isCallable := true } }

/-- Callable-default scenario, new column: a different factory default. -/
def stampNew : PWField :=
  { name := "stamp", ftype := ⟨"DateTimeField", "peewee"⟩,
    default := some { value := PValue.str "now2", isCallable := true } }

/-- Removed-literal-default scenario, old column: literal default `0`. -/
def countOld : PWField :=
  { name := "count", ftype := ⟨"IntegerField", "peewee"⟩,
    default := some { value := PValue.nat 0 } }

/-- Removed-literal-default scenario, new column: no default. -/
def countNew : PWField := { name := "count", ftype := ⟨"IntegerField", "peewee"⟩ }

/-- Old table for the removed-default scenario. -/
def clicksOld : PWModel := { table_name := "clicks", fields := [idField, countOld] }

/-- New table for the removed-default scenario. -/
def clicksNew : PWModel := { table_name := "clicks", fields := [idField, countNew] }

/-- A field whose class lives outside every recognized module and has no
recognized ancestor. -/
def strayField : PWField :=
  { name := "x", ftype := ⟨"MyField", "mymod"⟩, ancestors := [⟨"object", "builtins"⟩] }

/-- Scenario C: the referenced table. -/
def customersT : PWModel := { table_name := "customers", fields := [idField] }

/-- Scenario C: the foreign key of `orders` to `customers`. -/
def customerFK : PWField :=
  { name := "customer", ftype := ⟨"ForeignKeyField", "peewee"⟩, rel_table := some "customers" }

/-- Scenario C: the referencing table. -/
def ordersT : PWModel := { table_name := "orders", fields := [idField, customerFK] }

/-! ### Generic list lemmas -/

theorem find_self_of_nodup_key {α : Type _} (key : α → String) (l : List α)
    (hnd : (l.map key).Nodup) (x : α) (hx : x ∈ l) :
    l.find? (fun y => decide (key y = key x)) = some x := by
  induction l with
  | nil => cases hx
  | cons a t ih =>
    simp only [List.map_cons, List.nodup_cons, List.mem_map] at hnd
    rcases List.mem_cons.mp hx with rfl | hxt
    · simp
    · have hne : key a ≠ key x := fun he => hnd.1 ⟨x, hxt, he.symm⟩
      rw [List.find?_cons_of_neg _ (by simpa using hne), ih hnd.2 hxt]

theorem foldr_max_le (l : List Nat) (c : Nat) (h : ∀ x ∈ l, x ≤ c) :
    l.foldr max 0 ≤ c := by
  induction l with
  | nil => exact Nat.zero_le c
  | cons a t ih =>
    simp only [List.foldr_cons]
    exact max_le (h a (List.mem_cons_self a t))
      (ih fun x hx => h x (List.mem_cons_of_mem a hx))

theorem le_foldr_max (l : List Nat) (x : Nat) (hx : x ∈ l) : x ≤ l.foldr max 0 := by
  induction l with
  | nil => cases hx
  | cons a t ih =>
    simp only [List.foldr_cons]
    rcases List.mem_cons.mp hx with rfl | h
    · exact le_max_left _ _
    · exact le_trans (ih h) (le_max_right _ _)

theorem flatMap_filter_support {α β : Type _} (F : α → List β) (q : α → Bool) (l : List α)
    (h : ∀ e ∈ l, q e = false → F e = []) :
    l.flatMap F = (l.filter q).flatMap F := by
  induction l with
  | nil => rfl
  | cons a t ih =>
    have ht : ∀ e ∈ t, q e = false → F e = [] :=
      fun e he => h e (List.mem_cons_of_mem a he)
    cases hqa : q a with
    | true => simp [List.filter_cons, hqa, ih ht]
    | false => simp [List.filter_cons, hqa, h a (List.mem_cons_self a t) hqa, ih ht]

theorem precedes_append_mid {α : Type _} (x c y : List α) (a b : α)
    (h : Precedes c a b) : Precedes (x ++ c ++ y) a b := by
  obtain ⟨i, j, hij, ha, hb⟩ := h
  have hi : i < c.length := (List.getElem?_eq_some_iff.mp ha).1
  have hj : j < c.length := (List.getElem?_eq_some_iff.mp hb).1
  refine ⟨x.length + i, x.length + j, by omega, ?_, ?_⟩
  · rw [List.append_assoc, List.getElem?_append_right (Nat.le_add_right x.length i),
      Nat.add_sub_cancel_left, List.getElem?_append_left hi]
    exact ha
  · rw [List.append_assoc, List.getElem?_append_right (Nat.le_add_right x.length j),
      Nat.add_sub_cancel_left, List.getElem?_append_left hj]
    exact hb

theorem precedes_map {α β : Type _} (f : α → β) (l : List α) (a b : α)
    (h : Precedes l a b) : Precedes (l.map f) (f a) (f b) := by
  obtain ⟨i, j, hij, ha, hb⟩ := h
  exact ⟨i, j, hij, by simp [List.getElem?_map, ha], by simp [List.getElem?_map, hb]⟩

theorem precedes_of_mem_pairwise {α : Type _} (keyf : α → Nat) (l : List α)
    (hp : l.Pairwise (fun u v => keyf u ≤ keyf v)) (a b : α)
    (ha : a ∈ l) (hb : b ∈ l) (hk : keyf a < keyf b) : Precedes l a b := by
  obtain ⟨ia, hga⟩ := List.mem_iff_get.mp ha
  obtain ⟨ib, hgb⟩ := List.mem_iff_get.mp hb
  have hget := List.pairwise_iff_get.mp hp
  rcases Nat.lt_trichotomy (ia : Nat) (ib : Nat) with hlt | heq | hgt
  · refine ⟨ia, ib, hlt, ?_, ?_⟩
    · rw [List.getElem?_eq_getElem ia.isLt, ← List.get_eq_getElem, hga]
    · rw [List.getElem?_eq_getElem ib.isLt, ← List.get_eq_getElem, hgb]
  · exfalso
    have hfe : ia = ib := Fin.ext heq
    rw [← hga, ← hgb, hfe] at hk
    exact lt_irrefl _ hk
  · exfalso
    have hle := hget ib ia hgt
    rw [hga, hgb] at hle
    omega

theorem precedes_of_mem_pairwise_flip {α : Type _} (keyf : α → Nat) (l : List α)
    (hp : l.Pairwise (fun u v => keyf v ≤ keyf u)) (a b : α)
    (ha : a ∈ l) (hb : b ∈ l) (hk : keyf b < keyf a) : Precedes l a b := by
  obtain ⟨ia, hga⟩ := List.mem_iff_get.mp ha
  obtain ⟨ib, hgb⟩ := List.mem_iff_get.mp hb
  have hget := List.pairwise_iff_get.mp hp
  rcases Nat.lt_trichotomy (ia : Nat) (ib : Nat) with hlt | heq | hgt
  · refine ⟨ia, ib, hlt, ?_, ?_⟩
    · rw [List.getElem?_eq_getElem ia.isLt, ← List.get_eq_getElem, hga]
    · rw [List.getElem?_eq_getElem ib.isLt, ← List.get_eq_getElem, hgb]
  · exfalso
    have hfe : ia = ib := Fin.ext heq
    rw [← hga, ← hgb, hfe] at hk
    exact lt_irrefl _ hk
  · exfalso
    have hle := hget ib ia hgt
    rw [hga, hgb] at hle
    omega

theorem find_key_skip (k : String) (A B : TParams)
    (hA : ∀ kv ∈ A, kv.1 ≠ k) :
    (A ++ B).find? (fun kv => decide (kv.1 = k)) =
      B.find? (fun kv => decide (kv.1 = k)) := by
  induction A with
  | nil => rfl
  | cons a t ih =>
    rw [List.cons_append,
      List.find?_cons_of_neg _ (by simpa using hA a (List.mem_cons_self a t))]
    exact ih fun kv hkv => hA kv (List.mem_cons_of_mem a hkv)

/-! ### Parameter-dictionary structure -/

theorem mem_fk_keys (f : PWField) (kv : String × PValue) (h : kv ∈ fk_to_params f) :
    kv.1 = "on_delete" ∨ kv.1 = "on_update" := by
  unfold fk_to_params at h
  rcases List.mem_append.mp h with h | h
  · cases hd : f.on_delete <;> rw [hd] at h <;> simp at h
    rw [h]; left; rfl
  · cases hd : f.on_update <;> rw [hd] at h <;> simp at h
    rw [h]; right; rfl

theorem mem_extractor_keys (ft : FType) (f : PWField) (kv : String × PValue)
    (h : kv ∈ FIELD_TO_PARAMS ft f) : kv.1 ∈ extractorKeys := by
  unfold FIELD_TO_PARAMS at h
  split_ifs at h with h1 h2 h3 h4
  · simp at h; rw [h]; simp [extractorKeys]
  · simp at h
    rcases h with h | h | h | h <;> rw [h] <;> simp [extractorKeys]
  · rcases mem_fk_keys f kv h with h | h <;> rw [h] <;> simp [extractorKeys]
  · unfold dtf_to_params at h
    split_ifs at h
    · cases h
    · simp at h; rw [h]; simp [extractorKeys]
  · cases h

theorem extractor_key_ne (ft : FType) (f : PWField) (kv : String × PValue)
    (h : kv ∈ FIELD_TO_PARAMS ft f) :
    kv.1 ≠ "index" ∧ kv.1 ≠ "null" ∧ kv.1 ≠ "default" ∧ kv.1 ≠ "backref" ∧ kv.1 ≠ "cls" := by
  have hk := mem_extractor_keys ft f kv h
  refine ⟨?_, ?_, ?_, ?_, ?_⟩ <;> intro he <;> rw [he] at hk <;> revert hk <;> decide

theorem mem_defaultPart (f : PWField) (kv : String × PValue) (h : kv ∈ defaultPart f) :
    kv.1 = "default" := by
  rcases hd : f.default with _ | d <;> simp [defaultPart, hd] at h
  rw [h.2]

theorem removeKey_backref_noop (p : TParams) (h : ∀ kv ∈ p, kv.1 ≠ "backref") :
    removeKey p "backref" = p := by
  unfold removeKey
  apply List.filter_eq_self.mpr
  intro kv hkv
  simpa using h kv hkv

theorem field_to_params_eq (f : PWField) :
    field_to_params f =
      FIELD_TO_PARAMS (find_field_type f) f ++ defaultPart f ++ [indexEntryOf f] := by
  have hkeys : ∀ kv ∈ FIELD_TO_PARAMS (find_field_type f) f ++ defaultPart f ++ [indexEntryOf f],
      kv.1 ≠ "backref" := by
    intro kv hkv
    rcases List.mem_append.mp hkv with hkv | hkv
    · rcases List.mem_append.mp hkv with hkv | hkv
      · exact (extractor_key_ne _ _ _ hkv).2.2.2.1
      · rw [mem_defaultPart f kv hkv]; decide
    · simp [indexEntryOf] at hkv; rw [hkv]; simp
  have hbody : field_to_params f =
      removeKey (FIELD_TO_PARAMS (find_field_type f) f ++ defaultPart f ++ [indexEntryOf f])
        "backref" := by
    cases hd : f.default with
    | none => simp [field_to_params, defaultPart, indexEntryOf, hd]
    | some d =>
      by_cases hc : (!d.isCallable && d.isHashable) = true <;>
        simp [field_to_params, defaultPart, indexEntryOf, hd, hc]
  rw [hbody, removeKey_backref_noop _ hkeys]

theorem mem_field_to_params_key (f : PWField) (kv : String × PValue)
    (h : kv ∈ field_to_params f) :
    kv.1 ∈ extractorKeys ∨ kv.1 = "default" ∨ kv.1 = "index" := by
  rw [field_to_params_eq] at h
  rcases List.mem_append.mp h with h | h
  · rcases List.mem_append.mp h with h | h
    · exact Or.inl (mem_extractor_keys _ _ _ h)
    · exact Or.inr (Or.inl (mem_defaultPart _ _ h))
  · simp [indexEntryOf] at h; rw [h]; right; right; rfl

theorem field_to_params_key_ne_null (f : PWField) (kv : String × PValue)
    (h : kv ∈ field_to_params f) : kv.1 ≠ "null" := by
  rcases mem_field_to_params_key f kv h with h' | h' | h'
  · intro he; rw [he] at h'; revert h'; decide
  · rw [h']; decide
  · rw [h']; decide

theorem field_to_params_key_ne_index (f : PWField) (kv : String × PValue)
    (h : kv ∈ FIELD_TO_PARAMS (find_field_type f) f ++ defaultPart f) : kv.1 ≠ "index" := by
  rcases List.mem_append.mp h with h | h
  · exact (extractor_key_ne _ _ _ h).1
  · rw [mem_defaultPart _ _ h]; decide

theorem null_mem_params (f : PWField) (v : PValue) :
    (("null", v) ∈ field_to_params f ++ [("null", PValue.bool f.null)]) ↔
      v = PValue.bool f.null := by
  constructor
  · intro h
    rcases List.mem_append.mp h with h | h
    · exact absurd rfl (field_to_params_key_ne_null f _ h)
    · simpa using h
  · rintro rfl
    exact List.mem_append.mpr (Or.inr (List.mem_singleton.mpr rfl))

theorem index_mem_params (f : PWField) (v : PValue) :
    (("index", v) ∈ field_to_params f ++ [("null", PValue.bool f.null)]) ↔
      v = PValue.pair (f.index && !f.unique) f.unique := by
  constructor
  · intro h
    rcases List.mem_append.mp h with h | h
    · rw [field_to_params_eq] at h
      rcases List.mem_append.mp h with h | h
      · have := field_to_params_key_ne_index f _ h
        simp at this
      · simp [indexEntryOf] at h
        exact h
    · simp at h
  · rintro rfl
    rw [field_to_params_eq]
    refine List.mem_append.mpr (Or.inl (List.mem_append.mpr (Or.inr ?_)))
    simp [indexEntryOf]

/-! ### compare_fields characterisation -/

theorem field_to_params_core_key_ne_null (f : PWField) (kv : String × PValue)
    (h : kv ∈ FIELD_TO_PARAMS (find_field_type f) f ++ defaultPart f) : kv.1 ≠ "null" := by
  rcases List.mem_append.mp h with h | h
  · exact (extractor_key_ne _ _ _ h).2.1
  · rw [mem_defaultPart _ _ h]; decide

theorem compare_fields_eq_of_type_eq (f1 f2 : PWField)
    (ht : find_field_type f1 = find_field_type f2) :
    compare_fields f1 f2 =
      (field_to_params f1 ++ [("null", PValue.bool f1.null)]).filter
        (fun kv => !decide (kv ∈ field_to_params f2 ++ [("null", PValue.bool f2.null)])) := by
  unfold compare_fields dictDiff
  rw [if_neg (not_not_intro ht)]

theorem compare_fields_cls (f1 f2 : PWField)
    (ht : find_field_type f1 ≠ find_field_type f2) :
    compare_fields f1 f2 = [("cls", PValue.bool true)] := by
  unfold compare_fields
  rw [if_pos ht]

theorem compare_fields_eq_nil (f1 f2 : PWField)
    (ht : find_field_type f1 = find_field_type f2)
    (hsub : ∀ kv ∈ field_to_params f1 ++ [("null", PValue.bool f1.null)],
      kv ∈ field_to_params f2 ++ [("null", PValue.bool f2.null)]) :
    compare_fields f1 f2 = [] := by
  rw [compare_fields_eq_of_type_eq f1 f2 ht]
  apply List.filter_eq_nil_iff.mpr
  intro kv hkv
  simp [hsub kv hkv]

theorem compare_fields_self (f : PWField) : compare_fields f f = [] :=
  compare_fields_eq_nil f f rfl (fun _ hkv => hkv)

theorem lookupKey_compare_null (f1 f2 : PWField)
    (ht : find_field_type f1 = find_field_type f2) :
    lookupKey (compare_fields f1 f2) "null" =
      if f1.null = f2.null then none else some (PValue.bool f1.null) := by
  rw [compare_fields_eq_of_type_eq f1 f2 ht]
  unfold lookupKey
  rw [List.filter_append, find_key_skip _ _ _
    (fun kv hkv => field_to_params_key_ne_null f1 kv (List.mem_of_mem_filter hkv))]
  by_cases hnn : f1.null = f2.null
  · rw [if_pos hnn]
    have hmem : ("null", PValue.bool f1.null) ∈
        field_to_params f2 ++ [("null", PValue.bool f2.null)] :=
      (null_mem_params f2 _).mpr (by rw [hnn])
    simp [hmem]
    intro _
    exact hnn
  · rw [if_neg hnn]
    have hmem : ¬(("null", PValue.bool f1.null) ∈
        field_to_params f2 ++ [("null", PValue.bool f2.null)]) := by
      intro hmem
      exact hnn (by simpa using (null_mem_params f2 _).mp hmem)
    simp [hmem]
    exact ⟨fun hm => (field_to_params_key_ne_null f2 _ hm) rfl, hnn⟩

theorem lookupKey_compare_index (f1 f2 : PWField)
    (ht : find_field_type f1 = find_field_type f2) :
    lookupKey (compare_fields f1 f2) "index" =
      if (f1.index && !f1.unique) = (f2.index && !f2.unique) ∧ f1.unique = f2.unique
      then none
      else some (PValue.pair (f1.index && !f1.unique) f1.unique) := by
  rw [compare_fields_eq_of_type_eq f1 f2 ht]
  unfold lookupKey
  have hsplit : field_to_params f1 ++ [("null", PValue.bool f1.null)] =
      (FIELD_TO_PARAMS (find_field_type f1) f1 ++ defaultPart f1) ++
        ([indexEntryOf f1] ++ [("null", PValue.bool f1.null)]) := by
    rw [field_to_params_eq]
    simp [List.append_assoc]
  rw [hsplit, List.filter_append, find_key_skip _ _ _
    (fun kv hkv => field_to_params_key_ne_index f1 kv (List.mem_of_mem_filter hkv))]
  by_cases hmem : indexEntryOf f1 ∈ field_to_params f2 ++ [("null", PValue.bool f2.null)]
  · have hpair := (index_mem_params f2 _).mp hmem
    have hcond : (f1.index && !f1.unique) = (f2.index && !f2.unique) ∧ f1.unique = f2.unique := by
      have := PValue.pair.inj hpair
      exact ⟨this.1, this.2⟩
    rw [if_pos hcond]
    simp [indexEntryOf] at hmem
    simp [List.filter_append, indexEntryOf, hmem]
  · have hcond : ¬((f1.index && !f1.unique) = (f2.index && !f2.unique) ∧ f1.unique = f2.unique) := by
      intro hc
      exact hmem ((index_mem_params f2 _).mpr (by rw [hc.1, hc.2]))
    rw [if_neg hcond]
    simp [indexEntryOf] at hmem
    simp [List.filter_append, indexEntryOf, hmem]

theorem restParams_compare (f1 f2 : PWField)
    (ht : find_field_type f1 = find_field_type f2) :
    restParams (compare_fields f1 f2) =
      (FIELD_TO_PARAMS (find_field_type f1) f1 ++ defaultPart f1).filter
        (fun kv => !decide (kv ∈ field_to_params f2 ++ [("null", PValue.bool f2.null)])) := by
  rw [compare_fields_eq_of_type_eq f1 f2 ht]
  unfold restParams
  have hsplit : field_to_params f1 ++ [("null", PValue.bool f1.null)] =
      (FIELD_TO_PARAMS (find_field_type f1) f1 ++ defaultPart f1) ++
        ([indexEntryOf f1] ++ [("null", PValue.bool f1.null)]) := by
    rw [field_to_params_eq]
    simp [List.append_assoc]
  rw [hsplit, List.filter_append, List.filter_append]
  have h1 : ((FIELD_TO_PARAMS (find_field_type f1) f1 ++ defaultPart f1).filter
      (fun kv => !decide (kv ∈ field_to_params f2 ++ [("null", PValue.bool f2.null)]))).filter
      (fun kv => !decide (kv.1 = "null") && !decide (kv.1 = "index")) =
      (FIELD_TO_PARAMS (find_field_type f1) f1 ++ defaultPart f1).filter
        (fun kv => !decide (kv ∈ field_to_params f2 ++ [("null", PValue.bool f2.null)])) := by
    apply List.filter_eq_self.mpr
    intro kv hkv
    have hm := List.mem_of_mem_filter hkv
    simp [field_to_params_core_key_ne_null f1 kv hm, field_to_params_key_ne_index f1 kv hm]
  have h2 : (([indexEntryOf f1] ++ [("null", PValue.bool f1.null)]).filter
      (fun kv => !decide (kv ∈ field_to_params f2 ++ [("null", PValue.bool f2.null)]))).filter
      (fun kv => !decide (kv.1 = "null") && !decide (kv.1 = "index")) = [] := by
    apply List.filter_eq_nil_iff.mpr
    intro kv hkv
    have hm := List.mem_of_mem_filter hkv
    rcases List.mem_append.mp hm with hm | hm <;> simp [indexEntryOf] at hm <;> rw [hm] <;> simp
  rw [h1, h2, List.append_nil]

theorem restParams_cls (f1 f2 : PWField)
    (ht : find_field_type f1 ≠ find_field_type f2) :
    restParams (compare_fields f1 f2) = [("cls", PValue.bool true)] := by
  rw [compare_fields_cls f1 f2 ht]
  rfl

theorem lookupKey_cls_null (f1 f2 : PWField)
    (ht : find_field_type f1 ≠ find_field_type f2) :
    lookupKey (compare_fields f1 f2) "null" = none := by
  rw [compare_fields_cls f1 f2 ht]
  rfl

theorem lookupKey_cls_index (f1 f2 : PWField)
    (ht : find_field_type f1 ≠ find_field_type f2) :
    lookupKey (compare_fields f1 f2) "index" = none := by
  rw [compare_fields_cls f1 f2 ht]
  rfl

/-! ### commonPairs and the per-name filtering machinery -/

theorem mem_commonPairs (m1 m2 : PWModel) (p : PWField × PWField) :
    p ∈ commonPairs m1 m2 ↔ p.1 ∈ m1.fields ∧ lookupField m2 p.1.name = some p.2 := by
  obtain ⟨a, b⟩ := p
  unfold commonPairs
  constructor
  · intro h
    rcases List.mem_filterMap.mp h with ⟨f1, hf1, hmap⟩
    cases hl : lookupField m2 f1.name with
    | none => rw [hl] at hmap; cases hmap
    | some f2 =>
      rw [hl] at hmap
      simp at hmap
      obtain ⟨rfl, rfl⟩ := hmap
      exact ⟨hf1, hl⟩
  · rintro ⟨h1, h2⟩
    exact List.mem_filterMap.mpr ⟨a, h1, by rw [h2]; rfl⟩

theorem lookupField_self (m : PWModel) (f : PWField)
    (hnd : (m.fields.map PWField.name).Nodup) (hf : f ∈ m.fields) :
    lookupField m f.name = some f :=
  find_self_of_nodup_key PWField.name m.fields hnd f hf

theorem commonPairs_target (m1 m2 : PWModel) (f1 f2 : PWField)
    (h1 : f1 ∈ m1.fields) (h2 : f2 ∈ m2.fields) (hn : f2.name = f1.name)
    (hnd2 : (m2.fields.map PWField.name).Nodup) :
    (f1, f2) ∈ commonPairs m1 m2 := by
  refine (mem_commonPairs m1 m2 (f1, f2)).mpr ⟨h1, ?_⟩
  rw [← hn]
  exact lookupField_self m2 f2 hnd2 h2

theorem filterMap_pairs_name_nil {β : Type _} (m2 : PWModel) (l : List PWField) (nm : String)
    (g : PWField × PWField → Option β) (nameOf : β → String)
    (hg : ∀ p b, g p = some b → nameOf b = p.1.name)
    (hl : ∀ x ∈ l, x.name ≠ nm) :
    ((l.filterMap (fun x => (lookupField m2 x.name).map (fun y => (x, y)))).filterMap g).filter
      (fun b => decide (nameOf b = nm)) = [] := by
  apply List.filter_eq_nil_iff.mpr
  intro b hb
  rcases List.mem_filterMap.mp hb with ⟨p, hp, hgp⟩
  rcases List.mem_filterMap.mp hp with ⟨x, hx, hpx⟩
  have hp1 : p.1 = x := by
    cases hlk : lookupField m2 x.name with
    | none => rw [hlk] at hpx; cases hpx
    | some y =>
      rw [hlk] at hpx
      simp at hpx
      rw [← hpx]
  have hname := hg p b hgp
  simp [hname, hp1, hl x hx]

theorem filterMap_commonPairs_name {β : Type _} (m1 m2 : PWModel) (f1 f2 : PWField)
    (g : PWField × PWField → Option β) (nameOf : β → String)
    (hg : ∀ p b, g p = some b → nameOf b = p.1.name)
    (hnd1 : (m1.fields.map PWField.name).Nodup)
    (h1 : f1 ∈ m1.fields) (hl : lookupField m2 f1.name = some f2) :
    ((commonPairs m1 m2).filterMap g).filter (fun b => decide (nameOf b = f1.name)) =
      (g (f1, f2)).toList := by
  obtain ⟨u, v, huv⟩ := List.append_of_mem h1
  have hnd' := hnd1
  rw [huv] at hnd'
  simp only [List.map_append, List.map_cons, List.nodup_append, List.nodup_cons] at hnd'
  have hu : ∀ x ∈ u, x.name ≠ f1.name := by
    intro x hx he
    exact hnd'.2.2 (List.mem_map.mpr ⟨x, hx, rfl⟩) (by rw [he]; exact List.mem_cons_self _ _)
  have hv : ∀ x ∈ v, x.name ≠ f1.name := by
    intro x hx he
    exact hnd'.2.1.1 (List.mem_map.mpr ⟨x, hx, he⟩)
  have hmain : commonPairs m1 m2 =
      (u.filterMap (fun x => (lookupField m2 x.name).map (fun y => (x, y)))) ++
        (f1, f2) :: (v.filterMap (fun x => (lookupField m2 x.name).map (fun y => (x, y)))) := by
    unfold commonPairs
    rw [huv, List.filterMap_append, List.filterMap_cons, hl]
    rfl
  rw [hmain, List.filterMap_append, List.filterMap_cons, List.filter_append,
    filterMap_pairs_name_nil m2 u f1.name g nameOf hg hu, List.nil_append]
  cases hgf : g (f1, f2) with
  | none =>
    exact filterMap_pairs_name_nil m2 v f1.name g nameOf hg hv
  | some b =>
    have hb := hg _ _ hgf
    simp [List.filter_cons, hb, filterMap_pairs_name_nil m2 v f1.name g nameOf hg hv]

/-! ### Shapes of the operation segments -/

theorem mem_colIndexOps (m1 m2 : PWModel) (op : Operation) (h : op ∈ colIndexOps m1 m2) :
    ∃ e ∈ indexesList m1 m2,
      op = Operation.dropIndex m1.table_name [e.1] ∨
      op = Operation.addIndex m1.table_name [e.1] e.2.2 := by
  unfold colIndexOps at h
  rcases List.mem_flatMap.mp h with ⟨e, he, hop⟩
  refine ⟨e, he, ?_⟩
  by_cases hc : (e.2.1 || e.2.2) = true
  · rw [if_pos hc] at hop
    rcases List.mem_append.mp hop with hop | hop
    · cases hlk : lookupField m2 e.1 with
      | none => rw [hlk] at hop; cases hop
      | some f2 =>
        rw [hlk] at hop
        simp at hop
        exact Or.inl hop.2
    · simp at hop; exact Or.inr hop
  · rw [if_neg hc] at hop
    simp at hop
    exact Or.inl hop

theorem mem_compoundDrops (m1 m2 : PWModel) (op : Operation) (h : op ∈ compoundDrops m1 m2) :
    ∃ cols, 1 < cols.length ∧ op = Operation.dropIndex m1.table_name cols := by
  unfold compoundDrops at h
  rcases List.mem_filterMap.mp h with ⟨ix, _, hop⟩
  by_cases hlen : ix.1.length > 1
  · rw [if_pos hlen] at hop
    exact ⟨ix.1, hlen, (Option.some.inj hop).symm⟩
  · rw [if_neg hlen] at hop
    cases hop

theorem mem_compoundAdds (m1 m2 : PWModel) (op : Operation) (h : op ∈ compoundAdds m1 m2) :
    ∃ cols u, 1 < cols.length ∧ op = Operation.addIndex m1.table_name cols u := by
  unfold compoundAdds at h
  rcases List.mem_filterMap.mp h with ⟨ix, _, hop⟩
  by_cases hlen : ix.1.length > 1
  · rw [if_pos hlen] at hop
    exact ⟨ix.1, ix.2, hlen, (Option.some.inj hop).symm⟩
  · rw [if_neg hlen] at hop
    cases hop

theorem isColIndexOpFor_long_false (t nm : String) (op : Operation) (cols : List String)
    (hlen : 1 < cols.length)
    (hop : op = Operation.dropIndex t cols ∨ ∃ u, op = Operation.addIndex t cols u) :
    isColIndexOpFor t nm op = false := by
  have hcols : cols ≠ [nm] := by
    intro hc
    rw [hc] at hlen
    simp at hlen
  rcases hop with rfl | ⟨u, rfl⟩ <;> simp [isColIndexOpFor, hcols]

/-! ### Filtering diff_one down to one column's operations -/

theorem filter_diff_one_null (m1 m2 : PWModel) (nm : String) :
    (diff_one m1 m2).filter (isNullOpFor m1.table_name nm) =
      ((nullsList m1 m2).filter (fun e => decide (e.1 = nm))).map
        (fun e => Operation.changeNotNull m1.table_name e.1 e.2) := by
  unfold diff_one
  simp only [List.filter_append]
  have hA : ∀ (c : Prop) [Decidable c] (x : Operation), isNullOpFor m1.table_name nm x = false →
      (if c then [x] else []).filter (isNullOpFor m1.table_name nm) = [] := by
    intro c _ x hx
    split_ifs <;> simp [hx]
  rw [hA _ _ (by simp [isNullOpFor]), hA _ _ (by simp [isNullOpFor]),
    hA _ _ (by simp [isNullOpFor])]
  have hE : (colIndexOps m1 m2).filter (isNullOpFor m1.table_name nm) = [] := by
    apply List.filter_eq_nil_iff.mpr
    intro op hop
    rcases mem_colIndexOps m1 m2 op hop with ⟨e, _, rfl | rfl⟩ <;> simp [isNullOpFor]
  have hF : (compoundDrops m1 m2).filter (isNullOpFor m1.table_name nm) = [] := by
    apply List.filter_eq_nil_iff.mpr
    intro op hop
    rcases mem_compoundDrops m1 m2 op hop with ⟨cols, _, rfl⟩
    simp [isNullOpFor]
  have hG : (compoundAdds m1 m2).filter (isNullOpFor m1.table_name nm) = [] := by
    apply List.filter_eq_nil_iff.mpr
    intro op hop
    rcases mem_compoundAdds m1 m2 op hop with ⟨cols, u, _, rfl⟩
    simp [isNullOpFor]
  rw [hE, hF, hG]
  rw [List.filter_map]
  have hcongr : ∀ e ∈ nullsList m1 m2,
      (isNullOpFor m1.table_name nm ∘ fun e => Operation.changeNotNull m1.table_name e.1 e.2) e =
        decide (e.1 = nm) := by
    intro e _
    simp [isNullOpFor]
  rw [List.filter_congr hcongr]
  simp

theorem filter_diff_one_colIndex (m1 m2 : PWModel) (nm : String) :
    (diff_one m1 m2).filter (isColIndexOpFor m1.table_name nm) =
      (colIndexOps m1 m2).filter (isColIndexOpFor m1.table_name nm) := by
  unfold diff_one
  simp only [List.filter_append]
  have hA : ∀ (c : Prop) [Decidable c] (x : Operation),
      isColIndexOpFor m1.table_name nm x = false →
      (if c then [x] else []).filter (isColIndexOpFor m1.table_name nm) = [] := by
    intro c _ x hx
    split_ifs <;> simp [hx]
  rw [hA _ _ (by simp [isColIndexOpFor]), hA _ _ (by simp [isColIndexOpFor]),
    hA _ _ (by simp [isColIndexOpFor])]
  have hD : ((nullsList m1 m2).map
      (fun e => Operation.changeNotNull m1.table_name e.1 e.2)).filter
      (isColIndexOpFor m1.table_name nm) = [] := by
    apply List.filter_eq_nil_iff.mpr
    intro op hop
    rcases List.mem_map.mp hop with ⟨e, _, rfl⟩
    simp [isColIndexOpFor]
  have hF : (compoundDrops m1 m2).filter (isColIndexOpFor m1.table_name nm) = [] := by
    apply List.filter_eq_nil_iff.mpr
    intro op hop
    rcases mem_compoundDrops m1 m2 op hop with ⟨cols, hlen, rfl⟩
    simp [isColIndexOpFor_long_false m1.table_name nm _ cols hlen (Or.inl rfl)]
  have hG : (compoundAdds m1 m2).filter (isColIndexOpFor m1.table_name nm) = [] := by
    apply List.filter_eq_nil_iff.mpr
    intro op hop
    rcases mem_compoundAdds m1 m2 op hop with ⟨cols, u, hlen, rfl⟩
    simp [isColIndexOpFor_long_false m1.table_name nm _ cols hlen (Or.inr ⟨u, rfl⟩)]
  rw [hD, hF, hG]
  simp

/-! ### The per-column entry lists, filtered to one column -/

theorem nullsList_filter_target (m1 m2 : PWModel) (f1 f2 : PWField)
    (hnd1 : (m1.fields.map PWField.name).Nodup)
    (h1 : f1 ∈ m1.fields) (hl : lookupField m2 f1.name = some f2)
    (ht : find_field_type f1 = find_field_type f2) :
    (nullsList m1 m2).filter (fun e => decide (e.1 = f1.name)) =
      if f1.null = f2.null then [] else [(f1.name, f1.null)] := by
  have hg : ∀ (p : PWField × PWField) (b : String × Bool),
      (match lookupKey (compare_fields p.1 p.2) "null" with
       | some (PValue.bool b) => some (p.1.name, b)
       | _ => none) = some b → b.1 = p.1.name := by
    intro p b h
    cases hlk : lookupKey (compare_fields p.1 p.2) "null" with
    | none => rw [hlk] at h; simp at h
    | some v =>
      rw [hlk] at h
      cases v <;> simp at h
      rw [← h]

  have hmain := filterMap_commonPairs_name m1 m2 f1 f2
    (fun p => match lookupKey (compare_fields p.1 p.2) "null" with
      | some (PValue.bool b) => some (p.1.name, b)
      | _ => none) Prod.fst hg hnd1 h1 hl
  unfold nullsList
  rw [hmain]
  by_cases hnn : f1.null = f2.null
  · rw [if_pos hnn]
    simp [lookupKey_compare_null f1 f2 ht, hnn]
  · rw [if_neg hnn]
    simp [lookupKey_compare_null f1 f2 ht, hnn]

theorem indexesList_filter_target (m1 m2 : PWModel) (f1 f2 : PWField)
    (hnd1 : (m1.fields.map PWField.name).Nodup)
    (h1 : f1 ∈ m1.fields) (hl : lookupField m2 f1.name = some f2)
    (ht : find_field_type f1 = find_field_type f2) :
    (indexesList m1 m2).filter (fun e => decide (e.1 = f1.name)) =
      if (f1.index && !f1.unique) = (f2.index && !f2.unique) ∧ f1.unique = f2.unique
      then []
      else [(f1.name, f1.index && !f1.unique, f1.unique)] := by
  have hg : ∀ (p : PWField × PWField) (b : String × Bool × Bool),
      (match lookupKey (compare_fields p.1 p.2) "index" with
       | some (PValue.pair a b) => some (p.1.name, a, b)
       | _ => none) = some b → b.1 = p.1.name := by
    intro p b h
    cases hlk : lookupKey (compare_fields p.1 p.2) "index" with
    | none => rw [hlk] at h; simp at h
    | some v =>
      rw [hlk] at h
      cases v <;> simp at h
      rw [← h]

  have hmain := filterMap_commonPairs_name m1 m2 f1 f2
    (fun p => match lookupKey (compare_fields p.1 p.2) "index" with
      | some (PValue.pair a b) => some (p.1.name, a, b)
      | _ => none) Prod.fst hg hnd1 h1 hl
  unfold indexesList
  rw [hmain]
  by_cases hii : (f1.index && !f1.unique) = (f2.index && !f2.unique) ∧ f1.unique = f2.unique
  · rw [if_pos hii]
    simp only [lookupKey_compare_index f1 f2 ht]
    rw [if_pos hii]
    rfl
  · rw [if_neg hii]
    simp only [lookupKey_compare_index f1 f2 ht]
    rw [if_neg hii]
    rfl

theorem colIndexOps_target (m1 m2 : PWModel) (f1 f2 : PWField)
    (hnd1 : (m1.fields.map PWField.name).Nodup)
    (h1 : f1 ∈ m1.fields) (hl : lookupField m2 f1.name = some f2)
    (ht : find_field_type f1 = find_field_type f2)
    (hidx : ¬((f1.index && !f1.unique) = (f2.index && !f2.unique) ∧ f1.unique = f2.unique)) :
    (colIndexOps m1 m2).filter (isColIndexOpFor m1.table_name f1.name) =
      (if (f1.index && !f1.unique) || f1.unique then
        (if f2.unique || f2.index then [Operation.dropIndex m1.table_name [f1.name]] else [])
        ++ [Operation.addIndex m1.table_name [f1.name] f1.unique]
      else [Operation.dropIndex m1.table_name [f1.name]]) := by
  unfold colIndexOps
  rw [List.filter_flatMap]
  rw [flatMap_filter_support _ (fun e => decide (e.1 = f1.name)) _ ?hsupp]
  case hsupp =>
    intro e _ hq
    have hne : e.1 ≠ f1.name := by simpa using hq
    apply List.filter_eq_nil_iff.mpr
    intro op hop
    by_cases hc : (e.2.1 || e.2.2) = true
    · rw [if_pos hc] at hop
      rcases List.mem_append.mp hop with hop | hop
      · cases hlk : lookupField m2 e.1 with
        | none => rw [hlk] at hop; cases hop
        | some g2 =>
          rw [hlk] at hop
          simp at hop
          rw [hop.2]
          simp [isColIndexOpFor, hne]
      · simp at hop
        rw [hop]
        simp [isColIndexOpFor, hne]
    · rw [if_neg hc] at hop
      simp at hop
      rw [hop]
      simp [isColIndexOpFor, hne]
  rw [indexesList_filter_target m1 m2 f1 f2 hnd1 h1 hl ht, if_neg hidx]
  simp only [List.flatMap_cons, List.flatMap_nil, List.append_nil]
  rw [hl]
  by_cases hc : ((f1.index && !f1.unique) || f1.unique) = true
  · by_cases hf : (f2.unique || f2.index) = true
    · simp [hc, hf, isColIndexOpFor]
    · simp [hc, hf, isColIndexOpFor]
  · simp [hc, isColIndexOpFor]

/-! ### changedFields membership -/

theorem mem_changedFields_of (m1 m2 : PWModel) (f1 f2 : PWField)
    (hp : (f1, f2) ∈ commonPairs m1 m2)
    (hr : restParams (compare_fields f1 f2) ≠ []) :
    f1 ∈ changedFields m1 m2 := by
  unfold changedFields
  exact List.mem_filterMap.mpr ⟨(f1, f2), hp, by simp [hr]⟩

theorem changeFields_mem_diff_one (m1 m2 : PWModel)
    (h : changedFields m1 m2 ≠ []) :
    Operation.changeFields m1.table_name (changedFields m1 m2) ∈ diff_one m1 m2 := by
  unfold diff_one
  simp only [List.mem_append]
  refine Or.inl (Or.inl (Or.inl (Or.inl (Or.inr ?_))))
  rw [if_pos h]
  exact List.mem_singleton.mpr rfl

theorem not_mem_changedFields (m1 m2 : PWModel) (f1 f2 : PWField)
    (hl : lookupField m2 f1.name = some f2)
    (hr : restParams (compare_fields f1 f2) = []) :
    f1 ∉ changedFields m1 m2 := by
  intro hmem
  unfold changedFields at hmem
  rcases List.mem_filterMap.mp hmem with ⟨p, hp, hpe⟩
  obtain ⟨a, b⟩ := p
  have hps : restParams (compare_fields a b) ≠ [] ∧ a = f1 := by
    by_cases hcond : restParams (compare_fields a b) ≠ []
    · rw [if_pos hcond] at hpe
      exact ⟨hcond, Option.some.inj hpe⟩
    · rw [if_neg hcond] at hpe
      cases hpe
  obtain ⟨hne, rfl⟩ := hps
  rcases (mem_commonPairs m1 m2 (a, b)).mp hp with ⟨_, hplk⟩
  rw [hl] at hplk
  simp at hplk
  exact hne (hplk ▸ hr)

/-! ### diff_one on identical tables -/

theorem hasFieldName_of_mem (m : PWModel) (f : PWField) (hf : f ∈ m.fields) :
    hasFieldName m f.name = true := by
  unfold hasFieldName lookupField
  rw [List.find?_isSome]
  exact ⟨f, hf, by simp⟩

theorem addedFields_self (T : PWModel) : addedFields T T = [] := by
  unfold addedFields
  apply List.filter_eq_nil_iff.mpr
  intro f hf
  simp [hasFieldName_of_mem T f hf]

theorem droppedNames_self (T : PWModel) : droppedNames T T = [] := by
  unfold droppedNames
  rw [List.filter_eq_nil_iff.mpr (fun f hf => by simp [hasFieldName_of_mem T f hf])]
  rfl

theorem commonPairs_self_snd (T : PWModel) (hnd : (T.fields.map PWField.name).Nodup)
    (p : PWField × PWField) (hp : p ∈ commonPairs T T) : p.2 = p.1 := by
  rcases (mem_commonPairs T T p).mp hp with ⟨hm, hlk⟩
  rw [lookupField_self T p.1 hnd hm] at hlk
  exact (Option.some.inj hlk).symm

theorem changedFields_self (T : PWModel) (hnd : (T.fields.map PWField.name).Nodup) :
    changedFields T T = [] := by
  unfold changedFields
  apply List.filterMap_eq_nil_iff.mpr
  intro p hp
  rw [commonPairs_self_snd T hnd p hp, compare_fields_self]
  simp [restParams]

theorem nullsList_self (T : PWModel) (hnd : (T.fields.map PWField.name).Nodup) :
    nullsList T T = [] := by
  unfold nullsList
  apply List.filterMap_eq_nil_iff.mpr
  intro p hp
  rw [commonPairs_self_snd T hnd p hp, compare_fields_self]
  rfl

theorem indexesList_self (T : PWModel) (hnd : (T.fields.map PWField.name).Nodup) :
    indexesList T T = [] := by
  unfold indexesList
  apply List.filterMap_eq_nil_iff.mpr
  intro p hp
  rw [commonPairs_self_snd T hnd p hp, compare_fields_self]
  rfl

theorem colIndexOps_of_nil (m1 m2 : PWModel) (h : indexesList m1 m2 = []) :
    colIndexOps m1 m2 = [] := by
  unfold colIndexOps
  rw [h]
  rfl

theorem compoundDrops_self (T : PWModel) : compoundDrops T T = [] := by
  unfold compoundDrops
  rw [List.filter_eq_nil_iff.mpr (fun ix hix => by simp [hix])]
  rfl

theorem compoundAdds_self (T : PWModel) : compoundAdds T T = [] := by
  unfold compoundAdds
  rw [List.filter_eq_nil_iff.mpr (fun ix hix => by simp [hix])]
  rfl

theorem diff_one_self (T : PWModel) (hnd : (T.fields.map PWField.name).Nodup) :
    diff_one T T = [] := by
  unfold diff_one
  rw [addedFields_self T, droppedNames_self T, changedFields_self T hnd, nullsList_self T hnd,
    colIndexOps_of_nil T T (indexesList_self T hnd), compoundDrops_self T, compoundAdds_self T]
  simp

/-! ### diff_many: reflexivity -/

theorem lookupModel_self (models : List PWModel) (m : PWModel)
    (hnd : (models.map PWModel.table_name).Nodup) (hm : m ∈ models) :
    lookupModel models m.table_name = some m :=
  find_self_of_nodup_key PWModel.table_name models hnd m hm

theorem lookupModel_eq_none (models : List PWModel) (nm : String)
    (h : ∀ m ∈ models, m.table_name ≠ nm) :
    lookupModel models nm = none := by
  unfold lookupModel
  apply List.find?_eq_none.mpr
  intro x hx
  simp [h x hx]

theorem sort_models_perm (models : List PWModel) :
    List.Perm (sort_models models) models :=
  List.perm_insertionSort _ models

theorem sort_models_sorted (models : List PWModel) :
    (sort_models models).Pairwise (modelLE models) :=
  List.sorted_insertionSort _ models

theorem diff_many_core_self (S s : List PWModel)
    (hperm : List.Perm s S)
    (hnd : (s.map PWModel.table_name).Nodup)
    (hF : ∀ T ∈ S, (T.fields.map PWField.name).Nodup) :
    ((s.flatMap fun m =>
       match lookupModel s m.table_name with
       | some m2 => diff_one m m2
       | none => []) = []) ∧
    (s.filter (fun m => !(lookupModel s m.table_name).isSome) = []) := by
  constructor
  · apply List.flatMap_eq_nil_iff.mpr
    intro m hm
    rw [lookupModel_self s m hnd hm]
    exact diff_one_self m (hF m (hperm.mem_iff.mp hm))
  · apply List.filter_eq_nil_iff.mpr
    intro m hm
    simp [lookupModel_self s m hnd hm]

theorem diff_many_self (S : List PWModel) (hS : (S.map PWModel.table_name).Nodup)
    (hF : ∀ T ∈ S, (T.fields.map PWField.name).Nodup) (r : Bool) :
    diff_many S S r = [] := by
  have hperm : List.Perm (if r then (sort_models S).reverse else sort_models S) S := by
    cases r
    · simpa using sort_models_perm S
    · simpa using (List.reverse_perm (sort_models S)).trans (sort_models_perm S)
  have hnd : ((if r then (sort_models S).reverse else sort_models S).map
      PWModel.table_name).Nodup :=
    (hperm.map PWModel.table_name).nodup_iff.mpr hS
  obtain ⟨h1, h2⟩ := diff_many_core_self S _ hperm hnd hF
  simp only [diff_many]
  rw [h1, h2]
  simp

/-! ### Dependency depth and topological ordering -/

theorem depthF_le (models : List PWModel) (fuel : Nat) (m : PWModel) :
    depthF models fuel m ≤ fuel := by
  induction fuel generalizing m with
  | zero => simp [depthF]
  | succ n ih =>
    show ((depsOf models m).map (fun r => depthF models n r + 1)).foldr max 0 ≤ n + 1
    apply foldr_max_le
    intro x hx
    rcases List.mem_map.mp hx with ⟨r, _, rfl⟩
    exact Nat.succ_le_succ (ih r)

theorem depthF_edge (models : List PWModel) (fuel : Nat) (m r : PWModel)
    (hr : r ∈ depsOf models m) :
    depthF models fuel r + 1 ≤ depthF models (fuel + 1) m := by
  show depthF models fuel r + 1 ≤
    ((depsOf models m).map (fun r => depthF models fuel r + 1)).foldr max 0
  exact le_foldr_max _ _ (List.mem_map.mpr ⟨r, hr, rfl⟩)

theorem depthF_stable (models : List PWModel) (fuel : Nat) (m : PWModel)
    (h : depthF models fuel m < fuel) :
    depthF models (fuel + 1) m = depthF models fuel m := by
  induction fuel generalizing m with
  | zero => omega
  | succ n ih =>
    show ((depsOf models m).map (fun r => depthF models (n + 1) r + 1)).foldr max 0 =
      ((depsOf models m).map (fun r => depthF models n r + 1)).foldr max 0
    have hcong : ∀ r ∈ depsOf models m, depthF models (n + 1) r + 1 = depthF models n r + 1 := by
      intro r hr
      have hle : depthF models n r + 1 ≤ depthF models (n + 1) m := depthF_edge models n m r hr
      have hlt : depthF models n r < n := by omega
      rw [ih r hlt]
    rw [List.map_congr_left hcong]

theorem modelKey_lt_of_dep (models : List PWModel) (T1 T2 : PWModel)
    (hdep : T2 ∈ depsOf models T1) (h1 : T1 ∈ models)
    (hacy : acyclicModels models) :
    modelKey models T2 < modelKey models T1 := by
  have hpos : 0 < models.length := List.length_pos.mpr (List.ne_nil_of_mem h1)
  have hn : models.length = (models.length - 1) + 1 := by omega
  have hedge := depthF_edge models (models.length - 1) T1 T2 hdep
  have hT1 := hacy T1 h1
  rw [hn] at hT1
  have hlt : depthF models (models.length - 1) T2 < models.length - 1 := by omega
  have hstab := depthF_stable models (models.length - 1) T2 hlt
  unfold modelKey
  rw [hn, hstab]
  omega

theorem dep_of_fk (models : List PWModel) (T1 T2 : PWModel)
    (hfk : T2.table_name ∈ refNames T1) (hne : T2.table_name ≠ T1.table_name)
    (hnd : (models.map PWModel.table_name).Nodup) (h2 : T2 ∈ models) :
    T2 ∈ depsOf models T1 := by
  unfold depsOf
  refine List.mem_filterMap.mpr ⟨T2.table_name, hfk, ?_⟩
  rw [if_neg hne, lookupModel_self models T2 hnd h2]

theorem create_precedes (models1 models2 : List PWModel) (T1 T2 : PWModel)
    (h1 : T1 ∈ models1) (h2 : T2 ∈ models1)
    (hfk : T2.table_name ∈ refNames T1) (hne : T1.table_name ≠ T2.table_name)
    (hnd1 : (models1.map PWModel.table_name).Nodup)
    (hnew1 : ∀ M ∈ models2, M.table_name ≠ T1.table_name)
    (hnew2 : ∀ M ∈ models2, M.table_name ≠ T2.table_name)
    (hacy : acyclicModels models1) :
    Precedes (diff_many models1 models2 false) (Operation.createModel T2)
      (Operation.createModel T1) := by
  have hkey : modelKey models1 T2 < modelKey models1 T1 :=
    modelKey_lt_of_dep models1 T1 T2
      (dep_of_fk models1 T1 T2 hfk hne.symm hnd1 h2) h1 hacy
  have hred : diff_many models1 models2 false =
      ((sort_models models1).flatMap fun m =>
        match lookupModel (sort_models models2) m.table_name with
        | some m2 => diff_one m m2
        | none => []) ++
      ((sort_models models1).filter
        (fun m => !(lookupModel (sort_models models2) m.table_name).isSome)).map
        Operation.createModel ++
      ((sort_models models2).filter
        (fun m => !(lookupModel (sort_models models1) m.table_name).isSome)).map
        (fun m => Operation.removeModel m.table_name) := by
    simp [diff_many]
  rw [hred]
  apply precedes_append_mid
  apply precedes_map
  have hpair : ((sort_models models1).filter
      (fun m => !(lookupModel (sort_models models2) m.table_name).isSome)).Pairwise
      (fun u v => modelKey models1 u ≤ modelKey models1 v) :=
    ((sort_models_sorted models1).sublist (List.filter_sublist _)).imp (fun h => h)
  apply precedes_of_mem_pairwise (modelKey models1) _ hpair _ _ ?mem2 ?mem1 hkey
  case mem2 =>
    apply List.mem_filter.mpr
    refine ⟨(sort_models_perm models1).mem_iff.mpr h2, ?_⟩
    rw [lookupModel_eq_none (sort_models models2) _
      (fun M hM => hnew2 M ((sort_models_perm models2).mem_iff.mp hM))]
    rfl
  case mem1 =>
    apply List.mem_filter.mpr
    refine ⟨(sort_models_perm models1).mem_iff.mpr h1, ?_⟩
    rw [lookupModel_eq_none (sort_models models2) _
      (fun M hM => hnew1 M ((sort_models_perm models2).mem_iff.mp hM))]
    rfl

theorem remove_precedes (models1 models2 : List PWModel) (T1 T2 : PWModel)
    (h1 : T1 ∈ models2) (h2 : T2 ∈ models2)
    (hfk : T2.table_name ∈ refNames T1) (hne : T1.table_name ≠ T2.table_name)
    (hnd2 : (models2.map PWModel.table_name).Nodup)
    (hold1 : ∀ M ∈ models1, M.table_name ≠ T1.table_name)
    (hold2 : ∀ M ∈ models1, M.table_name ≠ T2.table_name)
    (hacy : acyclicModels models2) :
    Precedes (diff_many models1 models2 true)
      (Operation.removeModel T1.table_name) (Operation.removeModel T2.table_name) := by
  have hkey : modelKey models2 T2 < modelKey models2 T1 :=
    modelKey_lt_of_dep models2 T1 T2
      (dep_of_fk models2 T1 T2 hfk hne.symm hnd2 h2) h1 hacy
  have hred : diff_many models1 models2 true =
      ((sort_models models1).reverse.flatMap fun m =>
        match lookupModel (sort_models models2).reverse m.table_name with
        | some m2 => diff_one m m2
        | none => []) ++
      ((sort_models models1).reverse.filter
        (fun m => !(lookupModel (sort_models models2).reverse m.table_name).isSome)).map
        Operation.createModel ++
      ((sort_models models2).reverse.filter
        (fun m => !(lookupModel (sort_models models1).reverse m.table_name).isSome)).map
        (fun m => Operation.removeModel m.table_name) := by
    simp [diff_many]
  rw [hred]
  have hmid := precedes_append_mid
    (((sort_models models1).reverse.flatMap fun m =>
        match lookupModel (sort_models models2).reverse m.table_name with
        | some m2 => diff_one m m2
        | none => []) ++
      ((sort_models models1).reverse.filter
        (fun m => !(lookupModel (sort_models models2).reverse m.table_name).isSome)).map
        Operation.createModel)
    (((sort_models models2).reverse.filter
        (fun m => !(lookupModel (sort_models models1).reverse m.table_name).isSome)).map
        (fun m => Operation.removeModel m.table_name))
    [] (Operation.removeModel T1.table_name) (Operation.removeModel T2.table_name)
  rw [List.append_nil] at hmid
  apply hmid
  apply precedes_map
  have hpair : ((sort_models models2).reverse.filter
      (fun m => !(lookupModel (sort_models models1).reverse m.table_name).isSome)).Pairwise
      (fun u v => modelKey models2 v ≤ modelKey models2 u) :=
    ((List.pairwise_reverse.mpr
      ((sort_models_sorted models2).imp (fun h => h))).sublist (List.filter_sublist _))
  apply precedes_of_mem_pairwise_flip (modelKey models2) _ hpair _ _ ?rmem1 ?rmem2 hkey
  case rmem1 =>
    apply List.mem_filter.mpr
    refine ⟨List.mem_reverse.mpr ((sort_models_perm models2).mem_iff.mpr h1), ?_⟩
    rw [lookupModel_eq_none (sort_models models1).reverse _
      (fun M hM => hold1 M ((sort_models_perm models1).mem_iff.mp (List.mem_reverse.mp hM)))]
    rfl
  case rmem2 =>
    apply List.mem_filter.mpr
    refine ⟨List.mem_reverse.mpr ((sort_models_perm models2).mem_iff.mpr h2), ?_⟩
    rw [lookupModel_eq_none (sort_models models1).reverse _
      (fun M hM => hold2 M ((sort_models_perm models1).mem_iff.mp (List.mem_reverse.mp hM)))]
    rfl

/-! ### Rank ordering of diff_one output -/

theorem pairwise_le_of_const (l : List Nat) (c : Nat) (h : ∀ x ∈ l, x = c) :
    l.Pairwise (· ≤ ·) := by
  induction l with
  | nil => exact List.Pairwise.nil
  | cons a t ih =>
    refine List.Pairwise.cons ?_ (ih fun x hx => h x (List.mem_cons_of_mem a hx))
    intro b hb
    rw [h a (List.mem_cons_self a t), h b (List.mem_cons_of_mem a hb)]

theorem pairwise_rank_chain (l1 l2 : List Nat) (c : Nat)
    (h1 : ∀ x ∈ l1, x ≤ c) (h2 : ∀ x ∈ l2, c ≤ x)
    (p1 : l1.Pairwise (· ≤ ·)) (p2 : l2.Pairwise (· ≤ ·)) :
    (l1 ++ l2).Pairwise (· ≤ ·) :=
  List.pairwise_append.mpr ⟨p1, p2, fun a ha b hb => le_trans (h1 a ha) (h2 b hb)⟩

theorem opRank_ifseg (c : Prop) [Decidable c] (x : Operation) (k : Nat) (hx : opRank x = k) :
    ∀ r ∈ (List.map opRank (if c then [x] else [])), r = k := by
  intro r hr
  split_ifs at hr
  · simp at hr; rw [hr, hx]
  · cases hr

theorem opRank_addedSeg (m1 m2 : PWModel) :
    ∀ r ∈ (List.map opRank (if addedFields m1 m2 ≠ [] then
      [Operation.createFields m1.table_name (addedFields m1 m2)] else [])), r = 0 :=
  opRank_ifseg _ _ 0 rfl

theorem opRank_droppedSeg (m1 m2 : PWModel) :
    ∀ r ∈ (List.map opRank (if droppedNames m1 m2 ≠ [] then
      [Operation.dropFields m1.table_name (droppedNames m1 m2)] else [])), r = 1 :=
  opRank_ifseg _ _ 1 rfl

theorem opRank_changedSeg (m1 m2 : PWModel) :
    ∀ r ∈ (List.map opRank (if changedFields m1 m2 ≠ [] then
      [Operation.changeFields m1.table_name (changedFields m1 m2)] else [])), r = 2 :=
  opRank_ifseg _ _ 2 rfl

theorem opRank_nullSeg (m1 m2 : PWModel) :
    ∀ r ∈ (List.map opRank ((nullsList m1 m2).map
      (fun e => Operation.changeNotNull m1.table_name e.1 e.2))), r = 3 := by
  intro r hr
  rcases List.mem_map.mp hr with ⟨op, hop, rfl⟩
  rcases List.mem_map.mp hop with ⟨e, _, rfl⟩
  rfl

theorem opRank_colIndexSeg (m1 m2 : PWModel) :
    ∀ r ∈ (List.map opRank (colIndexOps m1 m2)), r = 4 := by
  intro r hr
  rcases List.mem_map.mp hr with ⟨op, hop, rfl⟩
  rcases mem_colIndexOps m1 m2 op hop with ⟨e, _, rfl | rfl⟩ <;> rfl

theorem opRank_compoundDropSeg (m1 m2 : PWModel) :
    ∀ r ∈ (List.map opRank (compoundDrops m1 m2)), r = 5 := by
  intro r hr
  rcases List.mem_map.mp hr with ⟨op, hop, rfl⟩
  rcases mem_compoundDrops m1 m2 op hop with ⟨cols, hlen, rfl⟩
  simp [opRank]
  omega

theorem opRank_compoundAddSeg (m1 m2 : PWModel) :
    ∀ r ∈ (List.map opRank (compoundAdds m1 m2)), r = 6 := by
  intro r hr
  rcases List.mem_map.mp hr with ⟨op, hop, rfl⟩
  rcases mem_compoundAdds m1 m2 op hop with ⟨cols, u, hlen, rfl⟩
  simp [opRank]
  omega

theorem diff_one_rank_pairwise (m1 m2 : PWModel) :
    ((diff_one m1 m2).map opRank).Pairwise (· ≤ ·) := by
  unfold diff_one
  simp only [List.map_append, List.append_assoc]
  have h0 := opRank_addedSeg m1 m2
  have h1 := opRank_droppedSeg m1 m2
  have h2 := opRank_changedSeg m1 m2
  have h3 := opRank_nullSeg m1 m2
  have h4 := opRank_colIndexSeg m1 m2
  have h5 := opRank_compoundDropSeg m1 m2
  have h6 := opRank_compoundAddSeg m1 m2
  have p56 := pairwise_rank_chain _ _ 5 (fun x hx => le_of_eq (h5 x hx))
    (fun x hx => by rw [h6 x hx]; omega)
    (pairwise_le_of_const _ 5 h5) (pairwise_le_of_const _ 6 h6)
  have b56 : ∀ x ∈ (List.map opRank (compoundDrops m1 m2) ++
      List.map opRank (compoundAdds m1 m2)), 5 ≤ x := by
    intro x hx
    rcases List.mem_append.mp hx with hx | hx
    · exact le_of_eq (h5 x hx).symm
    · rw [h6 x hx]; omega
  have p456 := pairwise_rank_chain _ _ 4 (fun x hx => le_of_eq (h4 x hx))
    (fun x hx => le_trans (by omega) (b56 x hx)) (pairwise_le_of_const _ 4 h4) p56
  have b456 : ∀ x ∈ (List.map opRank (colIndexOps m1 m2) ++
      (List.map opRank (compoundDrops m1 m2) ++ List.map opRank (compoundAdds m1 m2))), 4 ≤ x := by
    intro x hx
    rcases List.mem_append.mp hx with hx | hx
    · exact le_of_eq (h4 x hx).symm
    · exact le_trans (by omega) (b56 x hx)
  have p3456 := pairwise_rank_chain _ _ 3 (fun x hx => le_of_eq (h3 x hx))
    (fun x hx => le_trans (by omega) (b456 x hx)) (pairwise_le_of_const _ 3 h3) p456
  have b3456 : ∀ x ∈ (List.map opRank ((nullsList m1 m2).map
      (fun e => Operation.changeNotNull m1.table_name e.1 e.2)) ++
      (List.map opRank (colIndexOps m1 m2) ++
      (List.map opRank (compoundDrops m1 m2) ++ List.map opRank (compoundAdds m1 m2)))),
      3 ≤ x := by
    intro x hx
    rcases List.mem_append.mp hx with hx | hx
    · exact le_of_eq (h3 x hx).symm
    · exact le_trans (by omega) (b456 x hx)
  have p23 := pairwise_rank_chain _ _ 2 (fun x hx => le_of_eq (h2 x hx))
    (fun x hx => le_trans (by omega) (b3456 x hx)) (pairwise_le_of_const _ 2 h2) p3456
  have b23 : ∀ x ∈ (List.map opRank (if changedFields m1 m2 ≠ [] then
      [Operation.changeFields m1.table_name (changedFields m1 m2)] else []) ++
      (List.map opRank ((nullsList m1 m2).map
        (fun e => Operation.changeNotNull m1.table_name e.1 e.2)) ++
      (List.map opRank (colIndexOps m1 m2) ++
      (List.map opRank (compoundDrops m1 m2) ++ List.map opRank (compoundAdds m1 m2))))),
      2 ≤ x := by
    intro x hx
    rcases List.mem_append.mp hx with hx | hx
    · exact le_of_eq (h2 x hx).symm
    · exact le_trans (by omega) (b3456 x hx)
  have p12 := pairwise_rank_chain _ _ 1 (fun x hx => le_of_eq (h1 x hx))
    (fun x hx => le_trans (by omega) (b23 x hx)) (pairwise_le_of_const _ 1 h1) p23
  have b12 : ∀ x ∈ (List.map opRank (if droppedNames m1 m2 ≠ [] then
      [Operation.dropFields m1.table_name (droppedNames m1 m2)] else []) ++
      (List.map opRank (if changedFields m1 m2 ≠ [] then
        [Operation.changeFields m1.table_name (changedFields m1 m2)] else []) ++
      (List.map opRank ((nullsList m1 m2).map
        (fun e => Operation.changeNotNull m1.table_name e.1 e.2)) ++
      (List.map opRank (colIndexOps m1 m2) ++
      (List.map opRank (compoundDrops m1 m2) ++ List.map opRank (compoundAdds m1 m2)))))),
      1 ≤ x := by
    intro x hx
    rcases List.mem_append.mp hx with hx | hx
    · exact le_of_eq (h1 x hx).symm
    · exact le_trans (by omega) (b23 x hx)
  exact pairwise_rank_chain _ _ 0 (fun x hx => le_of_eq (h0 x hx))
    (fun _ _ => Nat.zero_le _) (pairwise_le_of_const _ 0 h0) p12

theorem countP_eq_zero_of_ne (l : List Nat) (c k : Nat) (h : ∀ x ∈ l, x = c) (hne : c ≠ k) :
    l.countP (fun x => decide (x = k)) = 0 := by
  apply List.countP_eq_zero.mpr
  intro x hx
  simp [h x hx, hne]

theorem countP_ifseg_le_one (c : Prop) [Decidable c] (x : Operation) (k : Nat) :
    (List.map opRank (if c then [x] else [])).countP (fun r => decide (r = k)) ≤ 1 := by
  split_ifs <;> simp [List.countP_cons]
  split_ifs <;> omega

theorem diff_one_rank_count (m1 m2 : PWModel) (k : Nat) (hk : k < 3) :
    ((diff_one m1 m2).map opRank).countP (fun x => decide (x = k)) ≤ 1 := by
  unfold diff_one
  simp only [List.map_append, List.countP_append]
  have h3 := countP_eq_zero_of_ne _ 3 k (opRank_nullSeg m1 m2) (by omega)
  have h4 := countP_eq_zero_of_ne _ 4 k (opRank_colIndexSeg m1 m2) (by omega)
  have h5 := countP_eq_zero_of_ne _ 5 k (opRank_compoundDropSeg m1 m2) (by omega)
  have h6 := countP_eq_zero_of_ne _ 6 k (opRank_compoundAddSeg m1 m2) (by omega)
  rw [h3, h4, h5, h6]
  interval_cases k
  · have hx1 := countP_eq_zero_of_ne _ 1 0 (opRank_droppedSeg m1 m2) (by omega)
    have hx2 := countP_eq_zero_of_ne _ 2 0 (opRank_changedSeg m1 m2) (by omega)
    rw [hx1, hx2]
    have := countP_ifseg_le_one (addedFields m1 m2 ≠ [])
      (Operation.createFields m1.table_name (addedFields m1 m2)) 0
    omega
  · have hx0 := countP_eq_zero_of_ne _ 0 1 (opRank_addedSeg m1 m2) (by omega)
    have hx2 := countP_eq_zero_of_ne _ 2 1 (opRank_changedSeg m1 m2) (by omega)
    rw [hx0, hx2]
    have := countP_ifseg_le_one (droppedNames m1 m2 ≠ [])
      (Operation.dropFields m1.table_name (droppedNames m1 m2)) 1
    omega
  · have hx0 := countP_eq_zero_of_ne _ 0 2 (opRank_addedSeg m1 m2) (by omega)
    have hx1 := countP_eq_zero_of_ne _ 1 2 (opRank_droppedSeg m1 m2) (by omega)
    rw [hx0, hx1]
    have := countP_ifseg_le_one (changedFields m1 m2 ≠ [])
      (Operation.changeFields m1.table_name (changedFields m1 m2)) 2
    omega

/-! ### Default-irrelevance and further helpers -/

theorem bool_index_or (a b : Bool) : ((a && !b) || b) = (a || b) := by
  cases a <;> cases b <;> rfl

theorem FIELD_TO_PARAMS_default_irrel (ft : FType) (f : PWField) (d : Option DefaultVal) :
    FIELD_TO_PARAMS ft { f with default := d } = FIELD_TO_PARAMS ft f := by
  unfold FIELD_TO_PARAMS
  split_ifs <;> rfl

theorem find_field_type_default_irrel (f : PWField) (d : Option DefaultVal) :
    find_field_type { f with default := d } = find_field_type f := rfl

theorem defaultPart_excluded (f : PWField) (h : excludedDefault f.default) :
    defaultPart f = [] := by
  unfold defaultPart
  unfold excludedDefault at h
  cases hd : f.default with
  | none => rfl
  | some d =>
    rw [hd] at h
    rcases h with h | h <;> simp [h]

theorem compare_fields_nil_of_defaultPart_nil (f2 : PWField) (d1 : Option DefaultVal)
    (hdp : defaultPart { f2 with default := d1 } = []) :
    compare_fields { f2 with default := d1 } f2 = [] := by
  apply compare_fields_eq_nil _ _ (find_field_type_default_irrel f2 d1)
  intro kv hkv
  rw [field_to_params_eq, FIELD_TO_PARAMS_default_irrel, find_field_type_default_irrel,
    hdp] at hkv
  rw [field_to_params_eq]
  simp only [List.append_nil, List.mem_append] at hkv
  rcases hkv with (hkv | hkv) | hkv
  · exact List.mem_append.mpr (Or.inl (List.mem_append.mpr (Or.inl (List.mem_append.mpr
      (Or.inl hkv)))))
  · refine List.mem_append.mpr (Or.inl (List.mem_append.mpr (Or.inr ?_)))
    simpa [indexEntryOf] using hkv
  · exact List.mem_append.mpr (Or.inr (by simpa using hkv))

theorem nullsList_filter_cls (m1 m2 : PWModel) (f1 f2 : PWField)
    (hnd1 : (m1.fields.map PWField.name).Nodup)
    (h1 : f1 ∈ m1.fields) (hl : lookupField m2 f1.name = some f2)
    (ht : find_field_type f1 ≠ find_field_type f2) :
    (nullsList m1 m2).filter (fun e => decide (e.1 = f1.name)) = [] := by
  have hg : ∀ (p : PWField × PWField) (b : String × Bool),
      (match lookupKey (compare_fields p.1 p.2) "null" with
       | some (PValue.bool b) => some (p.1.name, b)
       | _ => none) = some b → b.1 = p.1.name := by
    intro p b h
    cases hlk : lookupKey (compare_fields p.1 p.2) "null" with
    | none => rw [hlk] at h; simp at h
    | some v =>
      rw [hlk] at h
      cases v <;> simp at h
      rw [← h]

  have hmain := filterMap_commonPairs_name m1 m2 f1 f2
    (fun p => match lookupKey (compare_fields p.1 p.2) "null" with
      | some (PValue.bool b) => some (p.1.name, b)
      | _ => none) Prod.fst hg hnd1 h1 hl
  unfold nullsList
  rw [hmain]
  simp only [lookupKey_cls_null f1 f2 ht]
  rfl

theorem indexesList_filter_cls (m1 m2 : PWModel) (f1 f2 : PWField)
    (hnd1 : (m1.fields.map PWField.name).Nodup)
    (h1 : f1 ∈ m1.fields) (hl : lookupField m2 f1.name = some f2)
    (ht : find_field_type f1 ≠ find_field_type f2) :
    (indexesList m1 m2).filter (fun e => decide (e.1 = f1.name)) = [] := by
  have hg : ∀ (p : PWField × PWField) (b : String × Bool × Bool),
      (match lookupKey (compare_fields p.1 p.2) "index" with
       | some (PValue.pair a b) => some (p.1.name, a, b)
       | _ => none) = some b → b.1 = p.1.name := by
    intro p b h
    cases hlk : lookupKey (compare_fields p.1 p.2) "index" with
    | none => rw [hlk] at h; simp at h
    | some v =>
      rw [hlk] at h
      cases v <;> simp at h
      rw [← h]

  have hmain := filterMap_commonPairs_name m1 m2 f1 f2
    (fun p => match lookupKey (compare_fields p.1 p.2) "index" with
      | some (PValue.pair a b) => some (p.1.name, a, b)
      | _ => none) Prod.fst hg hnd1 h1 hl
  unfold indexesList
  rw [hmain]
  simp only [lookupKey_cls_index f1 f2 ht]
  rfl

theorem colIndexOps_filter_of_no_entry (m1 m2 : PWModel) (nm : String)
    (h : ∀ e ∈ indexesList m1 m2, e.1 ≠ nm) :
    (colIndexOps m1 m2).filter (isColIndexOpFor m1.table_name nm) = [] := by
  apply List.filter_eq_nil_iff.mpr
  intro op hop
  rcases mem_colIndexOps m1 m2 op hop with ⟨e, he, rfl | rfl⟩ <;>
    simp [isColIndexOpFor, h e he]

theorem indexesList_no_entry_of_filter_nil (m1 m2 : PWModel) (nm : String)
    (h : (indexesList m1 m2).filter (fun e => decide (e.1 = nm)) = []) :
    ∀ e ∈ indexesList m1 m2, e.1 ≠ nm := by
  intro e he hne
  have := List.filter_eq_nil_iff.mp h e he
  simp [hne] at this

theorem changeFields_unique (m1 m2 : PWModel) (fs : List PWField)
    (h : Operation.changeFields m1.table_name fs ∈ diff_one m1 m2) :
    fs = changedFields m1 m2 := by
  unfold diff_one at h
  simp only [List.mem_append] at h
  rcases h with (((((hA | hB) | hC) | hD) | hE) | hF) | hG
  · split_ifs at hA <;> simp at hA
  · split_ifs at hB <;> simp at hB
  · split_ifs at hC <;> simp at hC
    exact hC
  · rcases List.mem_map.mp hD with ⟨e, _, he⟩
    cases he
  · rcases mem_colIndexOps m1 m2 _ hE with ⟨e, _, he | he⟩ <;> cases he
  · rcases mem_compoundDrops m1 m2 _ hF with ⟨cols, _, he⟩
    cases he
  · rcases mem_compoundAdds m1 m2 _ hG with ⟨cols, u, _, he⟩
    cases he

theorem change_not_null_str_true (t n : String) :
    change_not_null_str t n true =
      "migrator.drop_not_null" ++ ("(" ++ pyrepr t ++ ", " ++ pyrepr n ++ ")") := by
  show "migrator." ++ "drop_not_null" ++ "(" ++ pyrepr t ++ ", " ++ pyrepr n ++ ")" = _
  rw [show ("migrator." ++ "drop_not_null" : String) = "migrator.drop_not_null" from by decide]
  simp only [← String.append_assoc]

theorem change_not_null_str_false (t n : String) :
    change_not_null_str t n false =
      "migrator.add_not_null" ++ ("(" ++ pyrepr t ++ ", " ++ pyrepr n ++ ")") := by
  show "migrator." ++ "add_not_null" ++ "(" ++ pyrepr t ++ ", " ++ pyrepr n ++ ")" = _
  rw [show ("migrator." ++ "add_not_null" : String) = "migrator.add_not_null" from by decide]
  simp only [← String.append_assoc]

theorem find_field_type_mro (f : PWField) :
    find_field_type f =
      ((f.ftype :: f.ancestors).find? (fun c => decide (c.module ∈ PW_MODULES))).getD
        f.ftype := by
  unfold find_field_type
  by_cases h : f.ftype.module ∈ PW_MODULES
  · rw [if_pos h, List.find?_cons_of_pos _ (by simpa using h)]
    rfl
  · rw [if_neg h]
    cases hf : (f.ftype :: f.ancestors).find? (fun c => decide (c.module ∈ PW_MODULES)) <;> rfl

/-! ### Claim theorems -/

/-- C1: Reflexivity of the schema diff: for every well-formed schema snapshot
`S` (distinct table names, distinct column names per table), `diff_many S S`
emits no operation — for either direction flag — and per table
`diff_one T T = []`. -/
theorem diff_reflexivity (S : List PWModel)
    (hS : (S.map PWModel.table_name).Nodup)
    (hF : ∀ T ∈ S, (T.fields.map PWField.name).Nodup) :
    (∀ r : Bool, diff_many S S r = []) ∧ (∀ T ∈ S, diff_one T T = []) :=
  ⟨fun r => diff_many_self S hS hF r, fun T hT => diff_one_self T (hF T hT)⟩

/-- Witness for C1 at a concrete three-table snapshot. -/
theorem diff_reflexivity_witness :
    ((([usersOld, ordersT, customersT].map PWModel.table_name).Nodup ∧
      ∀ T ∈ [usersOld, ordersT, customersT], (T.fields.map PWField.name).Nodup)) ∧
    ((∀ r : Bool,
        diff_many [usersOld, ordersT, customersT] [usersOld, ordersT, customersT] r = []) ∧
      (∀ T ∈ [usersOld, ordersT, customersT], diff_one T T = [])) :=
  ⟨⟨by decide, by decide⟩,
    diff_reflexivity [usersOld, ordersT, customersT] (by decide) (by decide)⟩

/-- C2: the operation kinds of `diff_one` appear in the fixed order — the
ranks (AddColumns 0, RemoveColumns 1, ChangeColumns 2, SetNullable 3,
per-column index operation 4, compound-index drop 5, compound-index add 6)
are nondecreasing along the output, and each of the three batched kinds
occurs at most once. -/
theorem diff_one_fixed_order (m1 m2 : PWModel) :
    ((diff_one m1 m2).map opRank).Pairwise (· ≤ ·) ∧
    ((diff_one m1 m2).map opRank).countP (fun x => decide (x = 0)) ≤ 1 ∧
    ((diff_one m1 m2).map opRank).countP (fun x => decide (x = 1)) ≤ 1 ∧
    ((diff_one m1 m2).map opRank).countP (fun x => decide (x = 2)) ≤ 1 :=
  ⟨diff_one_rank_pairwise m1 m2, diff_one_rank_count m1 m2 0 (by omega),
    diff_one_rank_count m1 m2 1 (by omega), diff_one_rank_count m1 m2 2 (by omega)⟩

/-- C3: when `T1` references `T2` by foreign key and both are newly created
(in an acyclic, well-named snapshot), the CreateTable of `T2` precedes that of
`T1` in `diff_many`'s output; and with `reverse = true`, when both are
dropped, `T1`'s RemoveTable precedes `T2`'s. -/
theorem fk_dependency_order (models1 models2 : List PWModel) (T1 T2 : PWModel)
    (hfk : T2.table_name ∈ refNames T1) (hne : T1.table_name ≠ T2.table_name) :
    ((T1 ∈ models1 ∧ T2 ∈ models1 ∧ (models1.map PWModel.table_name).Nodup ∧
      (∀ M ∈ models2, M.table_name ≠ T1.table_name ∧ M.table_name ≠ T2.table_name) ∧
      acyclicModels models1) →
      Precedes (diff_many models1 models2 false)
        (Operation.createModel T2) (Operation.createModel T1)) ∧
    ((T1 ∈ models2 ∧ T2 ∈ models2 ∧ (models2.map PWModel.table_name).Nodup ∧
      (∀ M ∈ models1, M.table_name ≠ T1.table_name ∧ M.table_name ≠ T2.table_name) ∧
      acyclicModels models2) →
      Precedes (diff_many models1 models2 true)
        (Operation.removeModel T1.table_name) (Operation.removeModel T2.table_name)) := by
  constructor
  · rintro ⟨h1, h2, hnd, hnames, hacy⟩
    exact create_precedes models1 models2 T1 T2 h1 h2 hfk hne hnd
      (fun M hM => (hnames M hM).1) (fun M hM => (hnames M hM).2) hacy
  · rintro ⟨h1, h2, hnd, hnames, hacy⟩
    exact remove_precedes models1 models2 T1 T2 h1 h2 hfk hne hnd
      (fun M hM => (hnames M hM).1) (fun M hM => (hnames M hM).2) hacy

/-- Witness for C3: scenario C (`orders` references `customers`; both created)
and its reverse (both dropped). -/
theorem fk_dependency_order_witness :
    (customersT.table_name ∈ refNames ordersT ∧
      ordersT.table_name ≠ customersT.table_name ∧
      ([ordersT, customersT].map PWModel.table_name).Nodup ∧
      acyclicModels [ordersT, customersT]) ∧
    Precedes (diff_many [ordersT, customersT] [] false)
      (Operation.createModel customersT) (Operation.createModel ordersT) ∧
    Precedes (diff_many [] [ordersT, customersT] true)
      (Operation.removeModel ordersT.table_name)
      (Operation.removeModel customersT.table_name) :=
  ⟨⟨by decide, by decide, by decide, by decide⟩,
    (fk_dependency_order [ordersT, customersT] [] ordersT customersT (by decide)
      (by decide)).1 ⟨by decide, by decide, by decide, by simp, by decide⟩,
    (fk_dependency_order [] [ordersT, customersT] ordersT customersT (by decide)
      (by decide)).2 ⟨by decide, by decide, by decide, by simp, by decide⟩⟩

/-- C4 (amended): `find_field_type` is total and never raises: it returns the
first class of the field's mro whose module is recognized, and when no such
class exists it silently falls back to the concrete class itself, even though
that class is unregistered. -/
theorem find_field_type_total_fallback (f : PWField) :
    find_field_type f =
      ((f.ftype :: f.ancestors).find? (fun c => decide (c.module ∈ PW_MODULES))).getD
        f.ftype :=
  find_field_type_mro f

/-- C4 counterexample: on a concrete field whose class lives outside every
recognized module and has no recognized ancestor, `find_field_type` returns
that unregistered class (raising nothing — the source has no raise path)
instead of failing with a ConfigurationError. -/
theorem find_field_type_silent_fallback_cex :
    find_field_type strayField = strayField.ftype ∧
      strayField.ftype.module ∉ PW_MODULES := by decide

/-- C5: for a column present in both versions with equal canonical types whose
popped index tuple differs, the per-column index operations are: when the new
state is indexed or unique, DropIndex first (present exactly when the old
state was indexed or unique) then AddIndex carrying the new unique flag; when
the new state is neither, DropIndex alone — and then the old state was
necessarily indexed or unique. -/
theorem index_flag_change_ops (m1 m2 : PWModel) (f1 f2 : PWField)
    (h1 : f1 ∈ m1.fields) (h2 : f2 ∈ m2.fields) (hn : f2.name = f1.name)
    (hnd1 : (m1.fields.map PWField.name).Nodup)
    (hnd2 : (m2.fields.map PWField.name).Nodup)
    (ht : find_field_type f1 = find_field_type f2)
    (hidx : ¬((f1.index && !f1.unique) = (f2.index && !f2.unique) ∧
      f1.unique = f2.unique)) :
    ((diff_one m1 m2).filter (isColIndexOpFor m1.table_name f1.name) =
      (if f1.index || f1.unique then
        (if f2.unique || f2.index then [Operation.dropIndex m1.table_name [f1.name]] else [])
        ++ [Operation.addIndex m1.table_name [f1.name] f1.unique]
      else [Operation.dropIndex m1.table_name [f1.name]])) ∧
    ((f1.index || f1.unique) = false → (f2.index || f2.unique) = true) := by
  have hl : lookupField m2 f1.name = some f2 := by
    rw [← hn]
    exact lookupField_self m2 f2 hnd2 h2
  constructor
  · rw [filter_diff_one_colIndex, colIndexOps_target m1 m2 f1 f2 hnd1 h1 hl ht hidx,
      bool_index_or]
  · intro hnew
    cases hi1 : f1.index <;> cases hu1 : f1.unique <;> cases hi2 : f2.index <;>
      cases hu2 : f2.unique <;> simp_all

/-- Witness for C5: scenario A — `users.email` goes from unique to indexed
non-unique, producing DropIndex then AddIndex with `unique = false`. -/
theorem index_flag_change_ops_witness :
    (emailNew ∈ usersNew.fields ∧ emailOld ∈ usersOld.fields ∧
      emailOld.name = emailNew.name ∧
      (usersNew.fields.map PWField.name).Nodup ∧
      (usersOld.fields.map PWField.name).Nodup ∧
      find_field_type emailNew = find_field_type emailOld ∧
      ¬((emailNew.index && !emailNew.unique) = (emailOld.index && !emailOld.unique) ∧
        emailNew.unique = emailOld.unique)) ∧
    (diff_one usersNew usersOld).filter (isColIndexOpFor usersNew.table_name emailNew.name) =
      [Operation.dropIndex usersNew.table_name [emailNew.name],
       Operation.addIndex usersNew.table_name [emailNew.name] emailNew.unique] :=
  ⟨by decide,
    ((index_flag_change_ops usersNew usersOld emailNew emailOld (by decide) (by decide)
      (by decide) (by decide) (by decide) (by decide) (by decide)).1).trans (by decide)⟩

/-- C6: a canonical-type mismatch on a same-named column pair always yields a
non-empty `compare_fields` difference and forces the column into the batched
ChangeColumns operation, regardless of any other attribute. -/
theorem type_mismatch_forces_change (m1 m2 : PWModel) (f1 f2 : PWField)
    (h1 : f1 ∈ m1.fields) (h2 : f2 ∈ m2.fields) (hn : f2.name = f1.name)
    (hnd2 : (m2.fields.map PWField.name).Nodup)
    (ht : find_field_type f1 ≠ find_field_type f2) :
    compare_fields f1 f2 ≠ [] ∧
    ∃ fs, Operation.changeFields m1.table_name fs ∈ diff_one m1 m2 ∧ f1 ∈ fs := by
  have hp : (f1, f2) ∈ commonPairs m1 m2 := commonPairs_target m1 m2 f1 f2 h1 h2 hn hnd2
  have hmem : f1 ∈ changedFields m1 m2 :=
    mem_changedFields_of m1 m2 f1 f2 hp (by rw [restParams_cls f1 f2 ht]; simp)
  exact ⟨by rw [compare_fields_cls f1 f2 ht]; simp,
    changedFields m1 m2, changeFields_mem_diff_one m1 m2 (List.ne_nil_of_mem hmem), hmem⟩

/-- Witness for C6: scenario B — `age` changes from 32-bit to 64-bit integer
with unchanged nullability, and still lands in ChangeColumns. -/
theorem type_mismatch_forces_change_witness :
    (ageNew ∈ personsNew.fields ∧ ageOld ∈ personsOld.fields ∧
      ageOld.name = ageNew.name ∧ (personsOld.fields.map PWField.name).Nodup ∧
      find_field_type ageNew ≠ find_field_type ageOld ∧ ageNew.null = ageOld.null) ∧
    (compare_fields ageNew ageOld ≠ [] ∧
      ∃ fs, Operation.changeFields personsNew.table_name fs ∈
        diff_one personsNew personsOld ∧ ageNew ∈ fs) :=
  ⟨by decide,
    type_mismatch_forces_change personsNew personsOld ageNew ageOld (by decide) (by decide)
      (by decide) (by decide) (by decide)⟩

/-- C7: for a same-named column pair with equal canonical types, a nullability
change emits exactly one SetNullable operation carrying the new flag —
rendered `drop_not_null` when the column becomes nullable and `add_not_null`
when it becomes non-nullable — and equal nullability emits none. -/
theorem nullability_change_ops (m1 m2 : PWModel) (f1 f2 : PWField)
    (h1 : f1 ∈ m1.fields) (h2 : f2 ∈ m2.fields) (hn : f2.name = f1.name)
    (hnd1 : (m1.fields.map PWField.name).Nodup)
    (hnd2 : (m2.fields.map PWField.name).Nodup)
    (ht : find_field_type f1 = find_field_type f2) :
    (f1.null ≠ f2.null →
      (diff_one m1 m2).filter (isNullOpFor m1.table_name f1.name) =
        [Operation.changeNotNull m1.table_name f1.name f1.null] ∧
      (f1.null = true → ∃ rest, change_not_null_str m1.table_name f1.name f1.null =
        "migrator.drop_not_null" ++ rest) ∧
      (f1.null = false → ∃ rest, change_not_null_str m1.table_name f1.name f1.null =
        "migrator.add_not_null" ++ rest)) ∧
    (f1.null = f2.null →
      (diff_one m1 m2).filter (isNullOpFor m1.table_name f1.name) = []) := by
  have hl : lookupField m2 f1.name = some f2 := by
    rw [← hn]
    exact lookupField_self m2 f2 hnd2 h2
  constructor
  · intro hnn
    refine ⟨?_, ?_, ?_⟩
    · rw [filter_diff_one_null, nullsList_filter_target m1 m2 f1 f2 hnd1 h1 hl ht,
        if_neg hnn]
      rfl
    · intro hb
      rw [hb]
      exact ⟨_, change_not_null_str_true _ _⟩
    · intro hb
      rw [hb]
      exact ⟨_, change_not_null_str_false _ _⟩
  · intro hnn
    rw [filter_diff_one_null, nullsList_filter_target m1 m2 f1 f2 hnd1 h1 hl ht,
      if_pos hnn]
    rfl

/-- Witness for C7: `authors.bio` becomes nullable — one SetNullable operation
with the new flag, rendered `drop_not_null`. -/
theorem nullability_change_ops_witness :
    (bioNew ∈ authorsNew.fields ∧ bioOld ∈ authorsOld.fields ∧
      bioOld.name = bioNew.name ∧
      (authorsNew.fields.map PWField.name).Nodup ∧
      (authorsOld.fields.map PWField.name).Nodup ∧
      find_field_type bioNew = find_field_type bioOld ∧ bioNew.null ≠ bioOld.null) ∧
    ((diff_one authorsNew authorsOld).filter
        (isNullOpFor authorsNew.table_name bioNew.name) =
      [Operation.changeNotNull authorsNew.table_name bioNew.name bioNew.null] ∧
      (bioNew.null = true → ∃ rest,
        change_not_null_str authorsNew.table_name bioNew.name bioNew.null =
          "migrator.drop_not_null" ++ rest) ∧
      (bioNew.null = false → ∃ rest,
        change_not_null_str authorsNew.table_name bioNew.name bioNew.null =
          "migrator.add_not_null" ++ rest)) :=
  ⟨by decide,
    (nullability_change_ops authorsNew authorsOld bioNew bioOld (by decide) (by decide)
      (by decide) (by decide) (by decide) (by decide)).1 (by decide)⟩

/-- C8: the comparable parameter set contains a `default` entry exactly when
the column's default is a non-None, non-callable, hashable literal; and two
columns differing only in an excluded default (absent, a factory/callable, or
unhashable) compare as unchanged. -/
theorem default_comparability (f : PWField) (f2 : PWField) (d1 : Option DefaultVal)
    (hd1 : excludedDefault d1) (hd2 : excludedDefault f2.default) :
    ((∃ v, ("default", v) ∈ field_to_params f) ↔
      (∃ d, f.default = some d ∧ d.isCallable = false ∧ d.isHashable = true)) ∧
    compare_fields { f2 with default := d1 } f2 = [] := by
  constructor
  · constructor
    · rintro ⟨v, hv⟩
      rw [field_to_params_eq] at hv
      rcases List.mem_append.mp hv with hv | hv
      · rcases List.mem_append.mp hv with hv | hv
        · exact absurd rfl (extractor_key_ne _ _ _ hv).2.2.1
        · rcases hd : f.default with _ | d <;> simp [defaultPart, hd] at hv
          exact ⟨d, rfl, hv.1.1, hv.1.2⟩
      · simp [indexEntryOf] at hv
    · rintro ⟨d, hd, hc, hh⟩
      refine ⟨d.value, ?_⟩
      rw [field_to_params_eq]
      refine List.mem_append.mpr (Or.inl (List.mem_append.mpr (Or.inr ?_)))
      simp [defaultPart, hd, hc, hh]
  · exact compare_fields_nil_of_defaultPart_nil f2 d1 (defaultPart_excluded _ hd1)

/-- Witness for C8: a literal-default column satisfies the iff, and two
timestamp columns differing only in their factory defaults compare equal. -/
theorem default_comparability_witness :
    (excludedDefault (some { value := PValue.str "now2", isCallable := true }) ∧
      excludedDefault stampOld.default) ∧
    (((∃ v, ("default", v) ∈ field_to_params countOld) ↔
      (∃ d, countOld.default = some d ∧ d.isCallable = false ∧ d.isHashable = true)) ∧
      compare_fields
        { stampOld with default := some { value := PValue.str "now2", isCallable := true } }
        stampOld = []) :=
  ⟨⟨by decide, by decide⟩,
    default_comparability countOld stampOld
      (some { value := PValue.str "now2", isCallable := true }) (by decide) (by decide)⟩

/-- C9: when canonical types differ, `compare_fields` returns only the cls
marker, so the column receives no SetNullable operation and no per-column
index operation even if its nullability or index state also changed; it
appears only in the ChangeColumns batch. -/
theorem type_mismatch_suppresses_ops (m1 m2 : PWModel) (f1 f2 : PWField)
    (h1 : f1 ∈ m1.fields) (h2 : f2 ∈ m2.fields) (hn : f2.name = f1.name)
    (hnd1 : (m1.fields.map PWField.name).Nodup)
    (hnd2 : (m2.fields.map PWField.name).Nodup)
    (ht : find_field_type f1 ≠ find_field_type f2) :
    compare_fields f1 f2 = [("cls", PValue.bool true)] ∧
    (diff_one m1 m2).filter (isNullOpFor m1.table_name f1.name) = [] ∧
    (diff_one m1 m2).filter (isColIndexOpFor m1.table_name f1.name) = [] ∧
    ∃ fs, Operation.changeFields m1.table_name fs ∈ diff_one m1 m2 ∧ f1 ∈ fs := by
  have hl : lookupField m2 f1.name = some f2 := by
    rw [← hn]
    exact lookupField_self m2 f2 hnd2 h2
  have hp := commonPairs_target m1 m2 f1 f2 h1 h2 hn hnd2
  have hmem : f1 ∈ changedFields m1 m2 :=
    mem_changedFields_of m1 m2 f1 f2 hp (by rw [restParams_cls f1 f2 ht]; simp)
  refine ⟨compare_fields_cls f1 f2 ht, ?_, ?_,
    changedFields m1 m2, changeFields_mem_diff_one m1 m2 (List.ne_nil_of_mem hmem), hmem⟩
  · rw [filter_diff_one_null, nullsList_filter_cls m1 m2 f1 f2 hnd1 h1 hl ht]
    rfl
  · rw [filter_diff_one_colIndex]
    exact colIndexOps_filter_of_no_entry m1 m2 f1.name
      (indexesList_no_entry_of_filter_nil m1 m2 f1.name
        (indexesList_filter_cls m1 m2 f1 f2 hnd1 h1 hl ht))

/-- Witness for C9: `games.score` changes type and also flips nullability and
index state — still no SetNullable and no per-column index operation. -/
theorem type_mismatch_suppresses_ops_witness :
    (scoreNew ∈ gamesNew.fields ∧ scoreOld ∈ gamesOld.fields ∧
      scoreOld.name = scoreNew.name ∧
      (gamesNew.fields.map PWField.name).Nodup ∧
      (gamesOld.fields.map PWField.name).Nodup ∧
      find_field_type scoreNew ≠ find_field_type scoreOld ∧
      scoreNew.null ≠ scoreOld.null ∧ scoreNew.index ≠ scoreOld.index) ∧
    (compare_fields scoreNew scoreOld = [("cls", PValue.bool true)] ∧
      (diff_one gamesNew gamesOld).filter
        (isNullOpFor gamesNew.table_name scoreNew.name) = [] ∧
      (diff_one gamesNew gamesOld).filter
        (isColIndexOpFor gamesNew.table_name scoreNew.name) = [] ∧
      ∃ fs, Operation.changeFields gamesNew.table_name fs ∈ diff_one gamesNew gamesOld ∧
        scoreNew ∈ fs) :=
  ⟨by decide,
    type_mismatch_suppresses_ops gamesNew gamesOld scoreNew scoreOld (by decide) (by decide)
      (by decide) (by decide) (by decide) (by decide)⟩

/-- C10: the field comparison is an asymmetric set difference over the new
column's pairs minus the old column's: a literal default present only on the
old column produces no diff entry — `compare_fields` is empty, the column is
in no ChangeColumns batch, and no SetNullable or per-column index operation is
emitted for it. -/
theorem removed_default_not_diffed (m1 m2 : PWModel) (f2 : PWField) (d : DefaultVal)
    (h1 : { f2 with default := none } ∈ m1.fields) (h2 : f2 ∈ m2.fields)
    (hnd1 : (m1.fields.map PWField.name).Nodup)
    (hnd2 : (m2.fields.map PWField.name).Nodup)
    (hd : f2.default = some d) (hc : d.isCallable = false) (hh : d.isHashable = true) :
    compare_fields { f2 with default := none } f2 = [] ∧
    (∀ fs, Operation.changeFields m1.table_name fs ∈ diff_one m1 m2 →
      { f2 with default := none } ∉ fs) ∧
    (diff_one m1 m2).filter (isNullOpFor m1.table_name f2.name) = [] ∧
    (diff_one m1 m2).filter (isColIndexOpFor m1.table_name f2.name) = [] := by
  have hcmp : compare_fields { f2 with default := none } f2 = [] :=
    compare_fields_nil_of_defaultPart_nil f2 none rfl
  have hl : lookupField m2 ({ f2 with default := none } : PWField).name = some f2 :=
    lookupField_self m2 f2 hnd2 h2
  refine ⟨hcmp, ?_, ?_, ?_⟩
  · intro fs hfs
    rw [changeFields_unique m1 m2 fs hfs]
    exact not_mem_changedFields m1 m2 _ f2 hl (by rw [hcmp]; rfl)
  · rw [filter_diff_one_null]
    have hnl := nullsList_filter_target m1 m2 { f2 with default := none } f2 hnd1 h1 hl rfl
    rw [show ({ f2 with default := none } : PWField).name = f2.name from rfl] at hnl
    rw [hnl, if_pos rfl]
    rfl
  · rw [filter_diff_one_colIndex]
    apply colIndexOps_filter_of_no_entry
    apply indexesList_no_entry_of_filter_nil
    have hil := indexesList_filter_target m1 m2 { f2 with default := none } f2 hnd1 h1 hl rfl
    rw [show ({ f2 with default := none } : PWField).name = f2.name from rfl] at hil
    rw [hil, if_pos ⟨rfl, rfl⟩]

/-- Witness for C10: `clicks.count` drops its literal default `0`; nothing is
diffed for that column. -/
theorem removed_default_not_diffed_witness :
    (({ countOld with default := none } : PWField) ∈ clicksNew.fields ∧
      countOld ∈ clicksOld.fields ∧
      (clicksNew.fields.map PWField.name).Nodup ∧
      (clicksOld.fields.map PWField.name).Nodup ∧
      countOld.default = some { value := PValue.nat 0 }) ∧
    (compare_fields { countOld with default := none } countOld = [] ∧
      (∀ fs, Operation.changeFields clicksNew.table_name fs ∈ diff_one clicksNew clicksOld →
        { countOld with default := none } ∉ fs) ∧
      (diff_one clicksNew clicksOld).filter
        (isNullOpFor clicksNew.table_name countOld.name) = [] ∧
      (diff_one clicksNew clicksOld).filter
        (isColIndexOpFor clicksNew.table_name countOld.name) = []) :=
  ⟨by decide,
    removed_default_not_diffed clicksNew clicksOld countOld { value := PValue.nat 0 }
      (by decide) (by decide) (by decide) (by decide) (by decide) (by decide) (by decide)⟩

end Auto